import Mathlib

/-!
The load-test engine of moeen/load-test (`loadtest/loadtest.go`).

Shallow embedding of `LoadTester` and its methods, followed by the properties
proved about them.

Modelling conventions

* Go `int` and `uint` are the 64-bit types of the usual targets (amd64, arm64).
  `int` values are `Int`; the `uint` counters of `Result` are `Nat` below
  `2 ^ 64`, and `++` on a counter is taken modulo `2 ^ 64` as in Go.
* `Result` (`map[int]uint`) is an association list read by `mapGet` and written
  by `mapSet`; only lookups are observable, as for a Go map.
* `chan struct{}` carries no data, so a channel is its capacity together with
  the number of queued tokens.  `NewLoadTester` gives the channel the capacity
  `concurrency`, and `Stop` sends only while `i < concurrency`, so every send
  is on a buffered channel; the rendezvous of an unbuffered channel never
  arises and is not modelled.
* Goroutines are interleaved at the granularity of their visible actions: the
  `select` at the top of an iteration, the completion of `client.Do`, and
  `storeStatusCode` (one atomic action, since its whole body runs under
  `lt.mu`).  A schedule is a list of events; running a schedule is a function.
* The transport always answers: every request issued gets a response or a
  transport error (`Reply`), chosen by the environment in the schedule.
* `Start` spawns its goroutines in one step; a goroutine that is spawned and
  not yet scheduled is the same as one not yet spawned, because spawning has no
  other effect.
* The `sync.WaitGroup` of `Start` is its counter, kept in 32 bits as in the
  standard library: `Add` panics when the counter becomes negative, `Done` is
  `Add(-1)`, and `Wait` returns when the counter is 0.  A panic stops the
  program.
* Fields of `Worker` named `sent`, `taken`, `failed`, `answered`, `stored` are
  observation counters: they record what the goroutine did and are never read
  by the code.
-/

namespace LoadTest

/-! ## Machine integers -/

/-- Number of values of Go's `uint`. -/
def uintMod : Nat := 2 ^ 64

/-- Largest value of Go's `int`. -/
def maxInt : Int := 2 ^ 63 - 1

/-! ## `type Result map[int]uint` -/

/-- The histogram: status code to number of occurrences. -/
abbrev Result := List (Int × Nat)

/-- The lookup `v, ok := m[k]` : `none` when the key is absent. -/
def mapGet : Result → Int → Option Nat
  | [], _ => none
  | (k1, v1) :: t, k => if k1 = k then some v1 else mapGet t k

/-- The assignment `m[k] = v` : overwrite the entry of `k`, or add it. -/
def mapSet : Result → Int → Nat → Result
  | [], k, v => [(k, v)]
  | (k1, v1) :: t, k, v => if k1 = k then (k, v) :: t else (k1, v1) :: mapSet t k v

/-- The expression `m[k]` : the zero value when the key is absent. -/
def mapIndex (m : Result) (k : Int) : Nat := (mapGet m k).getD 0

/-- Sum of all counts of a histogram. -/
def total (m : Result) : Nat := (m.map Prod.snd).sum

/-- The keys of a histogram. -/
def keys (m : Result) : List Int := m.map Prod.fst

/-! ## The stop channel -/

/-- Buffered `chan struct{}` : capacity and number of queued tokens. -/
structure Chan where
  cap : Nat
  len : Nat
deriving DecidableEq

/-- The send `ch <- struct{}{}` : `none` when the sender has to wait (buffer full). -/
def Chan.send (ch : Chan) : Option Chan :=
  if ch.len < ch.cap then some { ch with len := ch.len + 1 } else none

/-- The receive `<-ch` : `none` when no token is queued. -/
def Chan.recv (ch : Chan) : Option Chan :=
  if 0 < ch.len then some { ch with len := ch.len - 1 } else none

/-! ## `LoadTester` -/

/-- The request built by `http.NewRequest` with the `User-Agent` header set. -/
structure Request where
  method : String
  url : String
  userAgent : String
deriving DecidableEq

/-- The fields of `http.Client` that are set: `Timeout`. -/
structure Client where
  timeout : Int
deriving DecidableEq

/-- The struct `LoadTester`.  The mutex `mu` has no state of its own here: the
sections it guards are atomic actions. -/
structure LoadTester where
  client : Client
  request : Request
  requests : Int
  concurrency : Int
  result : Result
  stopCh : Chan
deriving DecidableEq

/-- What can go wrong: the error returned by `NewLoadTester`, and the run-time
panics of the operations used. -/
inductive Failure where
  | requestError
  | makechanSizeOutOfRange
  | negativeWaitGroupCounter
  | divideByZero
deriving DecidableEq

/-- The constructor `NewLoadTester`.  `validRequest method url` tells whether `http.NewRequest`
accepts the method and URL (standard library, outside the repository).
`make(chan struct{}, concurrency)` panics on a negative size. -/
def NewLoadTester (validRequest : String → String → Bool) (url method userAgent : String)
    (timeout : Int) (requests concurrency : Int) : Except Failure LoadTester :=
  if validRequest method url then
    if concurrency < 0 then
      .error .makechanSizeOutOfRange
    else
      .ok { client := { timeout := timeout }
            request := { method := method, url := url, userAgent := userAgent }
            requests := requests
            concurrency := concurrency
            result := []
            stopCh := { cap := concurrency.toNat, len := 0 } }
  else
    .error .requestError

/-- The method `Result()` : the histogram, read under the mutex. -/
def LoadTester.Result (lt : LoadTester) : Result := lt.result

/-- The method `storeStatusCode` : one atomic action (the body runs under `lt.mu`).
The entry is created with 0 when absent, then incremented as a `uint`. -/
def LoadTester.storeStatusCode (lt : LoadTester) (statusCode : Int) : LoadTester :=
  let result1 :=
    match mapGet lt.result statusCode with
    | none => mapSet lt.result statusCode 0
    | some _ => lt.result
  { lt with result := mapSet result1 statusCode ((mapIndex result1 statusCode + 1) % uintMod) }

/-! ## `sendRequest` and `runWorker` -/

/-- What `lt.client.Do(lt.request)` comes back with. -/
inductive Reply where
  | response (statusCode : Int)
  | transportError
deriving DecidableEq

/-- The method `sendRequest` : the pair `(status code, err != nil)` it returns. -/
def sendRequest : Reply → Int × Bool
  | .response statusCode => (statusCode, false)
  | .transportError => (0, true)

/-- Where a `runWorker` goroutine stands. -/
inductive PC where
  /-- about to test `i < n` and run the `select` -/
  | top
  /-- in the `default` branch, `sendRequest` issued and not yet returned -/
  | inflight
  /-- holding the status code `sc` returned by `sendRequest`, `storeStatusCode(sc)` not yet run -/
  | store (sc : Int)
  /-- returned -/
  | done
deriving DecidableEq

/-- A goroutine running `runWorker(n)` : the argument, the loop variable, the
position, and the observation counters (requests sent, stop tokens received,
diagnostics written to stderr, status codes returned by `sendRequest`, calls of
`storeStatusCode` completed). -/
structure Worker where
  n : Int
  i : Int
  pc : PC
  sent : Nat
  taken : Nat
  failed : Nat
  answered : Nat
  stored : Nat
deriving DecidableEq

/-- The goroutine at the call of `runWorker(n)`. -/
def Worker.new (n : Int) : Worker :=
  { n := n, i := 0, pc := .top, sent := 0, taken := 0, failed := 0, answered := 0, stored := 0 }

/-- The next action of `runWorker`; `reply` is consulted only when the action is
the return of `sendRequest`.  `none` : the goroutine has returned. -/
def LoadTester.runWorkerStep (lt : LoadTester) (w : Worker) (reply : Reply) :
    Option (LoadTester × Worker) :=
  match w.pc with
  | .top =>
    if w.i < w.n then
      match lt.stopCh.recv with
      | some ch => some ({ lt with stopCh := ch }, { w with pc := .done, taken := w.taken + 1 })
      | none => some (lt, { w with pc := .inflight, sent := w.sent + 1 })
    else
      some (lt, { w with pc := .done })
  | .inflight =>
    let (sc, err) := sendRequest reply
    if err then
      some (lt, { w with pc := .top, i := w.i + 1, failed := w.failed + 1 })
    else
      some (lt, { w with pc := .store sc, answered := w.answered + 1 })
  | .store sc =>
    some (lt.storeStatusCode sc, { w with pc := .top, i := w.i + 1, stored := w.stored + 1 })
  | .done => none

/-- The method `runWorker` followed on its own for at most `fuel` actions.  The rest of the
program is seen through `chanAt i`, the stop channel as it is when the worker
reaches the top of iteration `i`, and `replyAt i`, what the transport returns
for the request of iteration `i`. -/
def LoadTester.runWorker (chanAt : Int → Chan) (replyAt : Int → Reply) :
    Nat → LoadTester → Worker → LoadTester × Worker
  | 0, lt, w => (lt, w)
  | fuel + 1, lt, w =>
    let lt1 := if w.pc = .top then { lt with stopCh := chanAt w.i } else lt
    match lt1.runWorkerStep w (replyAt w.i) with
    | none => (lt, w)
    | some (lt2, w2) => LoadTester.runWorker chanAt replyAt fuel lt2 w2

/-! ## `Stop` -/

/-- A call of `Stop()` : its loop variable and whether it has returned. -/
structure StopCall where
  i : Int
  returned : Bool
deriving DecidableEq

/-- The call of `Stop()` at its entry. -/
def StopCall.new : StopCall := { i := 0, returned := false }

/-- The next action of a call of `Stop()` : one send, or the return.  `none` :
the call has returned already, or its send has to wait. -/
def LoadTester.StopStep (lt : LoadTester) (c : StopCall) : Option (LoadTester × StopCall) :=
  if c.returned then none
  else if c.i < lt.concurrency then
    match lt.stopCh.send with
    | some ch => some ({ lt with stopCh := ch }, { c with i := c.i + 1 })
    | none => none
  else some (lt, { c with returned := true })

/-- The call is waiting in a send on the full channel. -/
def LoadTester.StopBlocked (lt : LoadTester) (c : StopCall) : Bool :=
  !c.returned && decide (c.i < lt.concurrency) && lt.stopCh.send.isNone

/-- The method `Stop()` with nothing else running, for at most `fuel` actions. -/
def LoadTester.Stop : Nat → LoadTester → StopCall → LoadTester × StopCall
  | 0, lt, c => (lt, c)
  | fuel + 1, lt, c =>
    match lt.StopStep c with
    | none => (lt, c)
    | some (lt1, c1) => LoadTester.Stop fuel lt1 c1

/-! ## `Start` and the running program -/

/-- Go's `a / b` on `int` : panics on a zero divisor, truncates toward zero, and
wraps for the one quotient that does not fit. -/
def goDiv (a b : Int) : Except Failure Int :=
  if b = 0 then .error .divideByZero
  else if a = -(2 ^ 63) ∧ b = -1 then .ok (-(2 ^ 63))
  else .ok (a.tdiv b)

/-- The spawning loop of `Start`, `k` iterations: every goroutine evaluates
`lt.requests / lt.concurrency` and calls `runWorker` with it. -/
def LoadTester.spawn (lt : LoadTester) : Nat → Except Failure (List Worker)
  | 0 => .ok []
  | k + 1 =>
    match goDiv lt.requests lt.concurrency with
    | .error e => .error e
    | .ok n =>
      match lt.spawn k with
      | .error e => .error e
      | .ok ws => .ok (Worker.new n :: ws)

/-- Truncation of an integer to Go's `int32`. -/
def wrapInt32 (x : Int) : Int := (x + 2 ^ 31) % 2 ^ 32 - 2 ^ 31

/-- The call `wg.Add(delta)` on a `sync.WaitGroup` whose counter is `v`: the
counter lives in 32 bits (`int32(state >> 32)` after adding
`uint64(delta) << 32`), and `Add` panics when it comes out negative. -/
def wgAdd (v delta : Int) : Except Failure Int :=
  if wrapInt32 (v + delta) < 0 then .error .negativeWaitGroupCounter
  else .ok (wrapInt32 (v + delta))

/-- The deferred `wg.Done()` of a goroutine of `Start`, run when its `runWorker`
has returned (`returned`): the counter afterwards, and whether `Done` panicked. -/
def wgDone (v : Int) (returned : Bool) : Int × Bool :=
  if returned then
    match wgAdd v (-1) with
    | .ok v1 => (v1, false)
    | .error _ => (v, true)
  else (v, false)

/-- The program: the engine, the `runWorker` goroutines of `Start`, the calls
of `Stop()` made so far, the counter of the `WaitGroup` of `Start`, and whether
the program has panicked. -/
structure Sys where
  lt : LoadTester
  workers : List Worker
  stops : List StopCall
  wg : Int
  panicked : Bool
deriving DecidableEq

/-- The method `Start` up to `wg.Wait()` : `wg.Add(lt.concurrency)` on the fresh
`WaitGroup`, which panics when the 32-bit counter comes out negative; then the
goroutines are spawned.  The calls of `Stop()` already made are kept. -/
def LoadTester.Start (lt : LoadTester) (stops : List StopCall) : Except Failure Sys :=
  match wgAdd 0 lt.concurrency with
  | .error e => .error e
  | .ok v =>
    match lt.spawn lt.concurrency.toNat with
    | .error e => .error e
    | .ok ws => .ok { lt := lt, workers := ws, stops := stops, wg := v, panicked := false }

/-- The `wg.Wait()` of `Start` is over, `Start` returns: the counter of the
`WaitGroup` is 0 (and the program has not panicked). -/
def Sys.StartReturned (s : Sys) : Bool := !s.panicked && decide (s.wg = 0)

/-- What the scheduler and the environment decide. -/
inductive Event where
  /-- worker `j` performs its next action; `reply` is the transport's answer -/
  | worker (j : Nat) (reply : Reply)
  /-- somebody calls `Stop()` -/
  | callStop
  /-- the `k`-th call of `Stop()` performs its next action -/
  | stop (k : Nat)
deriving DecidableEq

/-- One event; `none` when the event cannot happen in this state (also: the
program has panicked).  A worker whose action is its return from `runWorker`
runs its deferred `wg.Done()` with it. -/
def Sys.step (s : Sys) (e : Event) : Option Sys :=
  if s.panicked then none
  else
    match e with
    | .worker j reply =>
      match s.workers[j]? with
      | none => none
      | some w =>
        match s.lt.runWorkerStep w reply with
        | none => none
        | some (lt1, w1) =>
          some { s with lt := lt1, workers := s.workers.set j w1,
                        wg := (wgDone s.wg (decide (w1.pc = .done))).1,
                        panicked := (wgDone s.wg (decide (w1.pc = .done))).2 }
    | .callStop => some { s with stops := s.stops ++ [StopCall.new] }
    | .stop k =>
      match s.stops[k]? with
      | none => none
      | some c =>
        match s.lt.StopStep c with
        | none => none
        | some (lt1, c1) => some { s with lt := lt1, stops := s.stops.set k c1 }

/-- A schedule, event after event. -/
def Sys.run (s : Sys) : List Event → Option Sys
  | [] => some s
  | e :: es =>
    match s.step e with
    | none => none
    | some s1 => s1.run es

/-- The event is an action of a worker. -/
def Event.isWorker : Event → Bool
  | .worker _ _ => true
  | _ => false

/-- Requests attempted by all workers. -/
def Sys.attempted (s : Sys) : Nat := (s.workers.map Worker.sent).sum

/-- Attempts that returned a status code. -/
def Sys.answered (s : Sys) : Nat := (s.workers.map Worker.answered).sum

/-- Diagnostics written to stderr. -/
def Sys.diagnostics (s : Sys) : Nat := (s.workers.map Worker.failed).sum

/-! ## Goroutines that call `storeStatusCode` directly -/

/-- Goroutine `j` of a group performs its next call of `storeStatusCode`; every
goroutine is the list of status codes it still has to record.  `none` when
there is no such goroutine or it has finished. -/
def LoadTester.recordStep (lt : LoadTester) (gs : List (List Int)) (j : Nat) :
    Option (LoadTester × List (List Int)) :=
  match gs[j]? with
  | some (sc :: rest) => some (lt.storeStatusCode sc, gs.set j rest)
  | _ => none

/-- An interleaving of the calls of the group: the goroutine chosen at each step. -/
def LoadTester.record (lt : LoadTester) (gs : List (List Int)) :
    List Nat → Option (LoadTester × List (List Int))
  | [] => some (lt, gs)
  | j :: js =>
    match lt.recordStep gs j with
    | none => none
    | some (lt1, gs1) => lt1.record gs1 js

/-- Number of calls with status code `c` that the group still has to make. -/
def calls (c : Int) (gs : List (List Int)) : Nat := (gs.map (List.count c)).sum

/-- What a histogram holds for a code recorded `a` times from the empty
histogram: nothing, or the `uint` counter. -/
def counter (a : Nat) : Option Nat := if a = 0 then none else some (a % uintMod)

/-- A consumer of the stop channel, `k` times in a row: `<-lt.stopCh`. -/
def Chan.consume : Nat → Chan → Option Chan
  | 0, ch => some ch
  | k + 1, ch =>
    match ch.recv with
    | none => none
    | some ch1 => Chan.consume k ch1

/-! ## Quantities used in the proofs -/

/-- The worker has a request under way (sent, result not yet recorded or dropped). -/
def PC.busy : PC → Nat
  | .inflight => 1
  | .store _ => 1
  | _ => 0

/-- The worker is waiting for the transport. -/
def PC.waiting : PC → Nat
  | .inflight => 1
  | _ => 0

/-- The worker holds a status code it has not recorded yet. -/
def PC.storing : PC → Nat
  | .store _ => 1
  | _ => 0

/-- What the counters of a worker satisfy at every moment. -/
structure Worker.ok (w : Worker) : Prop where
  i_nonneg : 0 ≤ w.i
  i_le : w.i ≤ w.n ∨ w.i = 0
  sent_eq : (w.sent : Int) = w.i + w.pc.busy
  busy_lt : w.pc.busy = 1 → w.i < w.n
  outcome : w.failed + w.answered + w.pc.waiting = w.sent
  stored_eq : w.stored + w.pc.storing = w.answered
  taken_le : w.taken ≤ 1
  taken_done : w.taken = 1 → w.pc = .done
  done_why : w.pc = .done → w.taken = 1 ∨ w.n ≤ w.i

/-- Upper bound on the actions a worker still performs. -/
def Worker.fuel (w : Worker) : Nat :=
  match w.pc with
  | .top => 3 * (w.n - w.i).toNat + 1
  | .inflight => 3 * (w.n - (w.i + 1)).toNat + 3
  | .store _ => 3 * (w.n - (w.i + 1)).toNat + 2
  | .done => 0

/-- Upper bound on the worker actions still to come. -/
def Sys.fuel (s : Sys) : Nat := (s.workers.map Worker.fuel).sum

/-- Stop tokens received by all workers. -/
def Sys.taken (s : Sys) : Nat := (s.workers.map Worker.taken).sum

/-- Calls of `storeStatusCode` completed by all workers. -/
def Sys.stored (s : Sys) : Nat := (s.workers.map Worker.stored).sum

/-- Requests the workers were given in all. -/
def Sys.budget (s : Sys) : Nat := (s.workers.map (fun w => w.n.toNat)).sum

/-! ## Concrete engines for the examples -/

/-- The engine that `NewLoadTester` returns for a valid GET request. -/
def exampleEngine (requests concurrency : Int) : LoadTester :=
  { client := { timeout := 1000000000 }
    request := { method := "GET", url := "http://localhost/", userAgent := "user-agent" }
    requests := requests
    concurrency := concurrency
    result := []
    stopCh := { cap := concurrency.toNat, len := 0 } }

/-- An engine whose histogram holds the largest `uint` for status code 200. -/
def saturatedEngine : LoadTester :=
  { exampleEngine 1 1 with result := [(200, 2 ^ 64 - 1)] }

/-! ## Invariants of the running program -/

/-- Every worker satisfies `Worker.ok`. -/
def Sys.allOk (s : Sys) : Prop := ∀ w ∈ s.workers, w.ok

/-- The histogram accounts for the completed calls of `storeStatusCode`, no
counter can wrap, and no key occurs twice. -/
def Sys.good (s : Sys) : Prop :=
  s.allOk ∧ total s.lt.result = s.stored ∧ s.budget < uintMod ∧ (keys s.lt.result).Nodup

/-- There are `L` workers, each running `runWorker(N)`. -/
def Sys.shape (N : Int) (L : Nat) (s : Sys) : Prop :=
  s.workers.length = L ∧ ∀ w ∈ s.workers, w.n = N

/-- No stop token is queued and none was received. -/
def Sys.quiet (s : Sys) : Prop := s.lt.stopCh.len = 0 ∧ ∀ w ∈ s.workers, w.taken = 0

/-- Nothing was recorded and no status code was returned. -/
def Sys.silent (s : Sys) : Prop :=
  s.allOk ∧ s.lt.result = [] ∧ ∀ w ∈ s.workers, w.answered = 0

/-- Every worker still has its token in the channel or has received it, and no
request was sent. -/
def Sys.halted (s : Sys) : Prop :=
  s.allOk ∧ s.lt.result = [] ∧ s.lt.stopCh.len + s.taken = s.workers.length ∧
    ∀ w ∈ s.workers, w.sent = 0 ∧ (w.pc = .top ∨ w.pc = .done)

/-- The worker has not returned. -/
def Worker.live (w : Worker) : Nat := if w.pc = .done then 0 else 1

/-- Number of workers that have not returned. -/
def Sys.live (s : Sys) : Nat := (s.workers.map Worker.live).sum

/-- The counter of the `WaitGroup` is the number of workers that have not
returned, and the program has not panicked. -/
def Sys.counted (s : Sys) : Prop :=
  s.panicked = false ∧ s.wg = (s.live : Int) ∧ s.wg < 2 ^ 31

/-- Requests issued whose answer has not come back yet. -/
def Sys.inflight (s : Sys) : Nat := (s.workers.map (fun w => w.pc.waiting)).sum

/-- The event is an action of a worker whose transport fails. -/
def Event.failing : Event → Bool
  | .worker _ .transportError => true
  | _ => false

end LoadTest

namespace LoadTest

/-! ## Histogram lemmas -/

theorem mapGet_mapSet_self (m : Result) (k : Int) (v : Nat) : mapGet (mapSet m k v) k = some v := by
  induction m with
  | nil => simp [mapSet, mapGet]
  | cons p t ih =>
    obtain ⟨k1, v1⟩ := p
    by_cases h : k1 = k
    · simp [mapSet, mapGet, h]
    · simp [mapSet, mapGet, h, ih]

theorem mapGet_mapSet_ne (m : Result) (k c : Int) (v : Nat) (h : k ≠ c) :
    mapGet (mapSet m c v) k = mapGet m k := by
  induction m with
  | nil =>
    have h1 : ¬ c = k := fun e => h e.symm
    simp [mapSet, mapGet, h1]
  | cons p t ih =>
    obtain ⟨k1, v1⟩ := p
    by_cases h1 : k1 = c
    · have h2 : ¬ c = k := fun e => h e.symm
      have h3 : ¬ k1 = k := fun e => h (e.symm.trans h1)
      simp [mapSet, mapGet, h1, h2]
    · by_cases h2 : k1 = k
      · subst h2
        simp [mapSet, mapGet, h1]
      · simp [mapSet, mapGet, h1, h2, ih]

theorem total_mapSet (m : Result) (k : Int) (v : Nat) :
    total (mapSet m k v) + mapIndex m k = total m + v := by
  induction m with
  | nil => simp [mapSet, total, mapIndex, mapGet]
  | cons p t ih =>
    obtain ⟨k1, v1⟩ := p
    by_cases h : k1 = k
    · simp [mapSet, total, mapIndex, mapGet, h]
      omega
    · simp only [mapSet, total, mapIndex, mapGet, h, if_false, List.map_cons, List.sum_cons] at ih ⊢
      omega

theorem mapIndex_le_total (m : Result) (k : Int) : mapIndex m k ≤ total m := by
  induction m with
  | nil => simp [total, mapIndex, mapGet]
  | cons p t ih =>
    obtain ⟨k1, v1⟩ := p
    by_cases h : k1 = k
    · simp [total, mapIndex, mapGet, h]
    · simp only [total, mapIndex, mapGet, h, if_false, List.map_cons, List.sum_cons] at ih ⊢
      omega

theorem keys_mapSet_nodup (m : Result) (k : Int) (v : Nat) (h : (keys m).Nodup) :
    (keys (mapSet m k v)).Nodup ∧ ∀ x, x ∈ keys (mapSet m k v) ↔ x ∈ keys m ∨ x = k := by
  induction m with
  | nil => simp [mapSet, keys]
  | cons p t ih =>
    obtain ⟨k1, v1⟩ := p
    simp only [keys, List.map_cons, List.nodup_cons] at h
    have ih1 := ih h.2
    by_cases h1 : k1 = k
    · subst h1
      simp only [mapSet, if_true, keys, List.map_cons, List.nodup_cons, List.mem_cons]
      refine ⟨h, fun x => ?_⟩
      tauto
    · simp only [mapSet, h1, if_false, keys, List.map_cons, List.nodup_cons, List.mem_cons]
      refine ⟨⟨?_, ih1.1⟩, fun x => ?_⟩
      · intro hm
        have h3 := ih1.2 k1
        simp only [keys] at h3
        rcases h3.1 hm with h2 | h2
        · exact h.1 h2
        · exact h1 h2
      · have h3 := ih1.2 x
        simp only [keys] at h3
        rw [h3]
        tauto

/-- The entry of the recorded code after `storeStatusCode`. -/
theorem store_get_self (lt : LoadTester) (c : Int) :
    mapGet (lt.storeStatusCode c).result c = some ((mapIndex lt.result c + 1) % uintMod) := by
  unfold LoadTester.storeStatusCode
  simp only [mapGet_mapSet_self]
  cases h : mapGet lt.result c with
  | none => simp [mapIndex, mapGet_mapSet_self, h]
  | some v => simp [mapIndex, h]

/-- The entries of the other codes after `storeStatusCode`. -/
theorem store_get_ne (lt : LoadTester) (c k : Int) (h : k ≠ c) :
    mapGet (lt.storeStatusCode c).result k = mapGet lt.result k := by
  unfold LoadTester.storeStatusCode
  simp only [mapGet_mapSet_ne _ _ _ _ h]
  cases h1 : mapGet lt.result c with
  | none => simp [mapGet_mapSet_ne _ _ _ _ h]
  | some v => simp

/-- The sum of the counts grows by one when the counter does not wrap. -/
theorem store_total (lt : LoadTester) (c : Int) (h : mapIndex lt.result c + 1 < uintMod) :
    total (lt.storeStatusCode c).result = total lt.result + 1 := by
  unfold LoadTester.storeStatusCode
  cases h1 : mapGet lt.result c with
  | none =>
    have e0 : mapIndex lt.result c = 0 := by simp [mapIndex, h1]
    have e1 := total_mapSet lt.result c 0
    have e2 : mapIndex (mapSet lt.result c 0) c = 0 := by simp [mapIndex, mapGet_mapSet_self]
    have e3 := total_mapSet (mapSet lt.result c 0) c ((0 + 1) % uintMod)
    have e4 : (0 + 1) % uintMod = 1 := by simp [uintMod]
    simp only [e2, e4] at e3 ⊢
    omega
  | some v =>
    have e0 : mapIndex lt.result c = v := by simp [mapIndex, h1]
    have e3 := total_mapSet lt.result c ((v + 1) % uintMod)
    rw [e0] at h
    have e4 : (v + 1) % uintMod = v + 1 := Nat.mod_eq_of_lt h
    simp only [e0, e4] at e3 ⊢
    omega

theorem store_other_fields (lt : LoadTester) (c : Int) :
    (lt.storeStatusCode c).stopCh = lt.stopCh ∧ (lt.storeStatusCode c).requests = lt.requests ∧
      (lt.storeStatusCode c).concurrency = lt.concurrency := by
  simp [LoadTester.storeStatusCode]

theorem store_keys_nodup (lt : LoadTester) (c : Int) (h : (keys lt.result).Nodup) :
    (keys (lt.storeStatusCode c).result).Nodup := by
  unfold LoadTester.storeStatusCode
  cases h1 : mapGet lt.result c with
  | none =>
    exact (keys_mapSet_nodup _ _ _ (keys_mapSet_nodup _ _ _ h).1).1
  | some v => exact (keys_mapSet_nodup _ _ _ h).1

/-! ## Sums over a list with one element replaced -/

theorem sum_map_set {α : Type} (f : α → Nat) (l : List α) (j : Nat) (x y : α)
    (h : l[j]? = some x) : ((l.set j y).map f).sum + f x = (l.map f).sum + f y := by
  induction l generalizing j with
  | nil => simp at h
  | cons a t ih =>
    cases j with
    | zero =>
      simp only [List.getElem?_cons_zero, Option.some.injEq] at h
      subst h
      simp only [List.set_cons_zero, List.map_cons, List.sum_cons]
      omega
    | succ j =>
      simp only [List.getElem?_cons_succ] at h
      have := ih j h
      simp only [List.set_cons_succ, List.map_cons, List.sum_cons]
      omega

theorem sum_map_le {α : Type} (f g : α → Nat) (l : List α) (h : ∀ x ∈ l, f x ≤ g x) :
    (l.map f).sum ≤ (l.map g).sum := by
  induction l with
  | nil => simp
  | cons a t ih =>
    simp only [List.map_cons, List.sum_cons]
    have h1 := h a (List.mem_cons_self a t)
    have h2 := ih (fun x hx => h x (List.mem_cons_of_mem a hx))
    omega

theorem sum_map_eq {α : Type} (f g : α → Nat) (l : List α) (h : ∀ x ∈ l, f x = g x) :
    (l.map f).sum = (l.map g).sum := by
  induction l with
  | nil => simp
  | cons a t ih =>
    simp only [List.map_cons, List.sum_cons]
    rw [h a (List.mem_cons_self a t), ih (fun x hx => h x (List.mem_cons_of_mem a hx))]

theorem sum_map_add {α : Type} (f g : α → Nat) (l : List α) :
    (l.map (fun x => f x + g x)).sum = (l.map f).sum + (l.map g).sum := by
  induction l with
  | nil => simp
  | cons a t ih =>
    simp only [List.map_cons, List.sum_cons, ih]
    omega

theorem sum_map_const {α : Type} (f : α → Nat) (l : List α) (c : Nat) (h : ∀ x ∈ l, f x = c) :
    (l.map f).sum = l.length * c := by
  induction l with
  | nil => simp
  | cons a t ih =>
    simp only [List.map_cons, List.sum_cons, List.length_cons]
    rw [h a (List.mem_cons_self a t), ih (fun x hx => h x (List.mem_cons_of_mem a hx))]
    ring

theorem sum_map_zero {α : Type} (f : α → Nat) (l : List α) (h : (l.map f).sum = 0) :
    ∀ x ∈ l, f x = 0 := by
  induction l with
  | nil => simp
  | cons a t ih =>
    simp only [List.map_cons, List.sum_cons] at h
    intro x hx
    rcases List.mem_cons.1 hx with rfl | hx
    · omega
    · exact ih (by omega) x hx

theorem mem_set_cases {α : Type} (l : List α) (j : Nat) (y a : α) (h : a ∈ l.set j y) :
    a ∈ l ∨ a = y := by
  induction l generalizing j with
  | nil => simp at h
  | cons b t ih =>
    cases j with
    | zero =>
      simp only [List.set_cons_zero, List.mem_cons] at h
      rcases h with h | h
      · exact Or.inr h
      · exact Or.inl (List.mem_cons_of_mem b h)
    | succ j =>
      simp only [List.set_cons_succ, List.mem_cons] at h
      rcases h with h | h
      · exact Or.inl (h ▸ List.mem_cons_self b t)
      · rcases ih j h with h1 | h1
        · exact Or.inl (List.mem_cons_of_mem b h1)
        · exact Or.inr h1

theorem mem_of_getElem? {α : Type} (l : List α) (j : Nat) (x : α) (h : l[j]? = some x) :
    x ∈ l := by
  induction l generalizing j with
  | nil => simp at h
  | cons b t ih =>
    cases j with
    | zero =>
      simp only [List.getElem?_cons_zero, Option.some.injEq] at h
      exact h ▸ List.mem_cons_self b t
    | succ j =>
      simp only [List.getElem?_cons_succ] at h
      exact List.mem_cons_of_mem b (ih j h)

/-! ## Interleaved calls of `storeStatusCode` -/

theorem mapIndex_of_counter (m : Result) (c : Int) (a : Nat) (h : mapGet m c = counter a) :
    mapIndex m c = a % uintMod := by
  unfold mapIndex
  rw [h]
  unfold counter
  by_cases h0 : a = 0
  · simp [h0]
  · simp [h0]

theorem counter_store (lt : LoadTester) (sc c : Int) (a : Nat)
    (h : mapGet lt.result c = counter a) :
    mapGet (lt.storeStatusCode sc).result c = counter (a + if sc = c then 1 else 0) := by
  by_cases hc : sc = c
  · subst hc
    rw [store_get_self, mapIndex_of_counter _ _ _ h]
    simp [counter, Nat.add_mod]
  · have hc1 : c ≠ sc := fun e => hc e.symm
    rw [store_get_ne _ _ _ hc1, h]
    simp [hc]

theorem calls_set (c sc : Int) (gs : List (List Int)) (j : Nat) (rest : List Int)
    (h : gs[j]? = some (sc :: rest)) :
    calls c (gs.set j rest) + (if sc = c then 1 else 0) = calls c gs := by
  have h1 := sum_map_set (List.count c) gs j (sc :: rest) rest h
  unfold calls
  by_cases hc : sc = c
  · subst hc
    simp only [List.count_cons_self] at h1
    rw [if_pos rfl]
    omega
  · have : List.count c (sc :: rest) = List.count c rest := by
      rw [List.count_cons]
      have : (sc == c) = false := by simpa using hc
      simp [this]
    rw [this] at h1
    rw [if_neg hc]
    omega

theorem recordStep_some (lt : LoadTester) (gs : List (List Int)) (j : Nat)
    (lt1 : LoadTester) (gs1 : List (List Int)) (h : lt.recordStep gs j = some (lt1, gs1)) :
    ∃ sc rest, gs[j]? = some (sc :: rest) ∧ lt1 = lt.storeStatusCode sc ∧ gs1 = gs.set j rest := by
  unfold LoadTester.recordStep at h
  cases hg : gs[j]? with
  | none => simp [hg] at h
  | some g =>
    cases g with
    | nil => simp [hg] at h
    | cons sc rest =>
      simp only [hg, Option.some.injEq, Prod.mk.injEq] at h
      exact ⟨sc, rest, rfl, h.1.symm, h.2.symm⟩

theorem record_counter (sched : List Nat) (lt : LoadTester) (gs : List (List Int))
    (lt1 : LoadTester) (gs1 : List (List Int)) (h : lt.record gs sched = some (lt1, gs1))
    (c : Int) (a : Nat) (ha : mapGet lt.result c = counter a) :
    ∃ a1, mapGet lt1.result c = counter a1 ∧ a1 + calls c gs1 = a + calls c gs := by
  induction sched generalizing lt gs a with
  | nil =>
    simp only [LoadTester.record, Option.some.injEq, Prod.mk.injEq] at h
    obtain ⟨rfl, rfl⟩ := h
    exact ⟨a, ha, rfl⟩
  | cons j js ih =>
    simp only [LoadTester.record] at h
    cases hs : lt.recordStep gs j with
    | none => simp [hs] at h
    | some p =>
      obtain ⟨lt2, gs2⟩ := p
      simp only [hs] at h
      obtain ⟨sc, rest, hg, rfl, rfl⟩ := recordStep_some _ _ _ _ _ hs
      obtain ⟨a1, h1, h2⟩ := ih _ _ h _ (counter_store lt sc c a ha)
      refine ⟨a1, h1, ?_⟩
      have := calls_set c sc gs j rest hg
      omega

theorem calls_of_all_nil (c : Int) (gs : List (List Int)) (h : ∀ g ∈ gs, g = []) :
    calls c gs = 0 := by
  induction gs with
  | nil => rfl
  | cons g t ih =>
    have h1 := h g (List.mem_cons_self g t)
    have h2 := ih (fun x hx => h x (List.mem_cons_of_mem g hx))
    unfold calls at h2 ⊢
    simp [h1, h2]

theorem record_replicate (c : Int) (n : Nat) (lt : LoadTester) :
    ∃ lt1, lt.record [List.replicate n c] (List.replicate n 0) = some (lt1, [[]]) ∧
      ∀ a, mapGet lt.result c = counter a → mapGet lt1.result c = counter (a + n) := by
  induction n generalizing lt with
  | zero => exact ⟨lt, rfl, fun a h => h⟩
  | succ n ih =>
    obtain ⟨lt1, h1, h2⟩ := ih (lt.storeStatusCode c)
    refine ⟨lt1, ?_, fun a ha => ?_⟩
    · simp only [List.replicate_succ, LoadTester.record, LoadTester.recordStep,
        List.getElem?_cons_zero, List.set_cons_zero]
      exact h1
    · have := h2 (a + 1) (by simpa using counter_store lt c c a ha)
      rw [this]
      congr 1
      omega

theorem calls_replicate (c : Int) (n : Nat) : calls c [List.replicate n c] = n := by
  simp [calls, List.count_replicate_self]

/-! ## `runWorker` on its own -/

theorem runWorker_done (chanAt : Int → Chan) (replyAt : Int → Reply) (fuel : Nat)
    (lt : LoadTester) (w : Worker) (h : w.pc = .done) :
    LoadTester.runWorker chanAt replyAt fuel lt w = (lt, w) := by
  cases fuel with
  | zero => rfl
  | succ f => simp [LoadTester.runWorker, LoadTester.runWorkerStep, h]

/-- One iteration that finds no stop token. -/
theorem runWorker_iteration (chanAt : Int → Chan) (replyAt : Int → Reply)
    (lt : LoadTester) (w : Worker) (htop : w.pc = .top) (hlt : w.i < w.n)
    (hch : (chanAt w.i).len = 0) :
    ∃ c lt1 w1, c ≤ 3 ∧
      (∀ fuel, LoadTester.runWorker chanAt replyAt (fuel + c) lt w
        = LoadTester.runWorker chanAt replyAt fuel lt1 w1) ∧
      w1.pc = .top ∧ w1.i = w.i + 1 ∧ w1.n = w.n ∧ w1.sent = w.sent + 1 ∧ w1.taken = w.taken ∧
      (replyAt w.i = .transportError →
        w1.failed = w.failed + 1 ∧ w1.stored = w.stored ∧ lt1.result = lt.result) := by
  cases hr : replyAt w.i with
  | transportError =>
    refine ⟨2, { lt with stopCh := chanAt w.i },
      { w with pc := .top, i := w.i + 1, failed := w.failed + 1, sent := w.sent + 1 }, by omega,
      fun fuel => ?_, rfl, rfl, rfl, rfl, rfl, fun _ => ⟨rfl, rfl, rfl⟩⟩
    simp [LoadTester.runWorker, LoadTester.runWorkerStep, htop, hlt, Chan.recv, hch, hr,
      sendRequest]
  | response sc =>
    refine ⟨3, ({ lt with stopCh := chanAt w.i } : LoadTester).storeStatusCode sc,
      { w with pc := .top, i := w.i + 1, answered := w.answered + 1, sent := w.sent + 1,
               stored := w.stored + 1 }, by omega,
      fun fuel => ?_, rfl, rfl, rfl, rfl, rfl, fun h => by simp at h⟩
    simp [LoadTester.runWorker, LoadTester.runWorkerStep, htop, hlt, Chan.recv, hch, hr,
      sendRequest]

/-- A run of `m` iterations in a row that find no stop token. -/
theorem runWorker_iterations (chanAt : Int → Chan) (replyAt : Int → Reply) (m : Nat)
    (lt : LoadTester) (w : Worker) (htop : w.pc = .top) (hle : w.i + m ≤ w.n)
    (hch : ∀ j : Int, w.i ≤ j → j < w.i + m → (chanAt j).len = 0) :
    ∃ c lt1 w1, c ≤ 3 * m ∧
      (∀ fuel, LoadTester.runWorker chanAt replyAt (fuel + c) lt w
        = LoadTester.runWorker chanAt replyAt fuel lt1 w1) ∧
      w1.pc = .top ∧ w1.i = w.i + m ∧ w1.n = w.n ∧ w1.sent = w.sent + m ∧ w1.taken = w.taken ∧
      ((∀ j : Int, w.i ≤ j → j < w.i + m → replyAt j = .transportError) →
        w1.failed = w.failed + m ∧ w1.stored = w.stored ∧ lt1.result = lt.result) := by
  induction m generalizing lt w with
  | zero =>
    exact ⟨0, lt, w, by omega, fun fuel => rfl, htop, by simp, rfl, rfl, rfl,
      fun _ => ⟨rfl, rfl, rfl⟩⟩
  | succ m ih =>
    have hlt : w.i < w.n := by push_cast at hle; omega
    obtain ⟨c1, lt1, w1, hc1, hrun1, htop1, hi1, hn1, hs1, ht1, herr1⟩ :=
      runWorker_iteration chanAt replyAt lt w htop hlt (hch w.i (le_refl _) (by push_cast; omega))
    obtain ⟨c2, lt2, w2, hc2, hrun2, htop2, hi2, hn2, hs2, ht2, herr2⟩ :=
      ih lt1 w1 htop1 (by rw [hi1, hn1]; push_cast at hle; omega)
        (fun j h1 h2 => hch j (by omega) (by push_cast; omega))
    refine ⟨c2 + c1, lt2, w2, by omega, fun fuel => ?_, htop2, ?_, by rw [hn2, hn1], by omega,
      by omega, fun herr => ?_⟩
    · rw [← Nat.add_assoc, hrun1, hrun2]
    · rw [hi2, hi1]; push_cast; omega
    · obtain ⟨f1, s1, r1⟩ := herr1 (herr w.i (le_refl _) (by push_cast; omega))
      obtain ⟨f2, s2, r2⟩ := herr2 (fun j h1 h2 => herr j (by omega) (by push_cast; omega))
      exact ⟨by omega, by omega, by rw [r2, r1]⟩

/-- The worker that finds the first token at the top of iteration `k`. -/
theorem runWorker_stopped (chanAt : Int → Chan) (replyAt : Int → Reply) (n k : Nat)
    (lt : LoadTester) (hk : k < n)
    (hno : ∀ j : Int, 0 ≤ j → j < k → (chanAt j).len = 0) (hyes : 0 < (chanAt k).len)
    (fuel : Nat) (hfuel : 3 * k + 1 ≤ fuel) :
    ∃ lt1 w1, LoadTester.runWorker chanAt replyAt fuel lt (Worker.new n) = (lt1, w1) ∧
      w1.pc = .done ∧ w1.sent = k ∧ w1.taken = 1 ∧ w1.i = k ∧
      lt1.stopCh.len + 1 = (chanAt k).len := by
  obtain ⟨c, lt1, w1, hc, hrun, htop, hi, hn, hs, ht, -⟩ :=
    runWorker_iterations chanAt replyAt k lt (Worker.new n) rfl
      (by simp only [Worker.new]; omega)
      (fun j h1 h2 => hno j h1 (by simpa [Worker.new] using h2))
  simp only [Worker.new, zero_add] at hi hn hs ht
  obtain ⟨f, rfl⟩ : ∃ f, fuel = (f + 1) + c := ⟨fuel - c - 1, by omega⟩
  rw [hrun]
  have hlt : w1.i < w1.n := by rw [hi, hn]; exact_mod_cast hk
  have hlen : 0 < (chanAt w1.i).len := by rw [hi]; exact hyes
  refine ⟨{ lt1 with stopCh := { chanAt w1.i with len := (chanAt w1.i).len - 1 } },
    { w1 with pc := .done, taken := w1.taken + 1 }, ?_, rfl, hs, by simp [ht], hi, ?_⟩
  · simp [LoadTester.runWorker, LoadTester.runWorkerStep, htop, hlt, Chan.recv, hlen]
    exact runWorker_done _ _ _ _ _ rfl
  · simp only
    rw [hi] at hlen ⊢
    omega

/-- The worker that never finds a token. -/
theorem runWorker_exhausted (chanAt : Int → Chan) (replyAt : Int → Reply) (n : Nat)
    (lt : LoadTester) (hno : ∀ j : Int, 0 ≤ j → j < n → (chanAt j).len = 0)
    (fuel : Nat) (hfuel : 3 * n + 1 ≤ fuel) :
    ∃ lt1 w1, LoadTester.runWorker chanAt replyAt fuel lt (Worker.new n) = (lt1, w1) ∧
      w1.pc = .done ∧ w1.sent = n ∧ w1.taken = 0 ∧ w1.i = n ∧
      ((∀ j : Int, 0 ≤ j → j < n → replyAt j = .transportError) →
        w1.failed = n ∧ w1.stored = 0 ∧ lt1.result = lt.result) := by
  obtain ⟨c, lt1, w1, hc, hrun, htop, hi, hn, hs, ht, herr⟩ :=
    runWorker_iterations chanAt replyAt n lt (Worker.new n) rfl
      (by simp only [Worker.new]; omega)
      (fun j h1 h2 => hno j h1 (by simpa [Worker.new] using h2))
  simp only [Worker.new, zero_add] at hi hn hs ht herr
  obtain ⟨f, rfl⟩ : ∃ f, fuel = (f + 1) + c := ⟨fuel - c - 1, by omega⟩
  rw [hrun]
  have hlt : ¬ w1.i < w1.n := by rw [hi, hn]; omega
  refine ⟨{ lt1 with stopCh := chanAt w1.i }, { w1 with pc := .done }, ?_, rfl, hs, ht, hi,
    fun h => herr h⟩
  simp [LoadTester.runWorker, LoadTester.runWorkerStep, htop, hlt]
  exact runWorker_done _ _ _ _ _ rfl

/-! ## One action of a worker -/

theorem runWorkerStep_cases (lt : LoadTester) (w : Worker) (reply : Reply)
    (lt1 : LoadTester) (w1 : Worker) (h : lt.runWorkerStep w reply = some (lt1, w1)) :
    (w.pc = .top ∧ w.i < w.n ∧ 0 < lt.stopCh.len ∧
        lt1 = { lt with stopCh := { lt.stopCh with len := lt.stopCh.len - 1 } } ∧
        w1 = { w with pc := .done, taken := w.taken + 1 }) ∨
      (w.pc = .top ∧ w.i < w.n ∧ lt.stopCh.len = 0 ∧ lt1 = lt ∧
        w1 = { w with pc := .inflight, sent := w.sent + 1 }) ∨
      (w.pc = .top ∧ ¬ w.i < w.n ∧ lt1 = lt ∧ w1 = { w with pc := .done }) ∨
      (w.pc = .inflight ∧ reply = .transportError ∧ lt1 = lt ∧
        w1 = { w with pc := .top, i := w.i + 1, failed := w.failed + 1 }) ∨
      (∃ sc, w.pc = .inflight ∧ reply = .response sc ∧ lt1 = lt ∧
        w1 = { w with pc := .store sc, answered := w.answered + 1 }) ∨
      (∃ sc, w.pc = .store sc ∧ lt1 = lt.storeStatusCode sc ∧
        w1 = { w with pc := .top, i := w.i + 1, stored := w.stored + 1 }) := by
  unfold LoadTester.runWorkerStep at h
  cases hpc : w.pc with
  | top =>
    simp only [hpc] at h
    by_cases hlt : w.i < w.n
    · simp only [hlt, if_true] at h
      by_cases hlen : 0 < lt.stopCh.len
      · simp only [Chan.recv, hlen, if_true, Option.some.injEq, Prod.mk.injEq] at h
        exact Or.inl ⟨rfl, hlt, hlen, h.1.symm, h.2.symm⟩
      · simp only [Chan.recv, hlen, if_false, Option.some.injEq, Prod.mk.injEq] at h
        exact Or.inr (Or.inl ⟨rfl, hlt, by omega, h.1.symm, h.2.symm⟩)
    · simp only [hlt, if_false, Option.some.injEq, Prod.mk.injEq] at h
      exact Or.inr (Or.inr (Or.inl ⟨rfl, hlt, h.1.symm, h.2.symm⟩))
  | inflight =>
    simp only [hpc] at h
    cases reply with
    | transportError =>
      simp only [sendRequest, if_true, Option.some.injEq, Prod.mk.injEq] at h
      exact Or.inr (Or.inr (Or.inr (Or.inl ⟨rfl, rfl, h.1.symm, h.2.symm⟩)))
    | response sc =>
      simp only [sendRequest, Bool.false_eq_true, if_false, Option.some.injEq,
        Prod.mk.injEq] at h
      exact Or.inr (Or.inr (Or.inr (Or.inr (Or.inl ⟨sc, rfl, rfl, h.1.symm, h.2.symm⟩))))
  | store sc =>
    simp only [hpc, Option.some.injEq, Prod.mk.injEq] at h
    exact Or.inr (Or.inr (Or.inr (Or.inr (Or.inr ⟨sc, rfl, h.1.symm, h.2.symm⟩))))
  | done => simp [hpc] at h

theorem runWorkerStep_isSome (lt : LoadTester) (w : Worker) (reply : Reply) (h : w.pc ≠ .done) :
    (lt.runWorkerStep w reply).isSome = true := by
  unfold LoadTester.runWorkerStep
  cases hpc : w.pc with
  | top =>
    simp only []
    split
    · split <;> rfl
    · rfl
  | inflight =>
    cases reply <;> simp [sendRequest]
  | store sc => rfl
  | done => exact absurd hpc h

theorem Worker.ok_new (n : Int) : (Worker.new n).ok := by
  constructor <;> simp [Worker.new, PC.busy, PC.waiting, PC.storing]

theorem Worker.ok_step (lt : LoadTester) (w : Worker) (reply : Reply)
    (lt1 : LoadTester) (w1 : Worker) (h : lt.runWorkerStep w reply = some (lt1, w1))
    (hok : w.ok) : w1.ok := by
  obtain ⟨h1, h2, h3, h4, h5, h6, h7, h8, h9⟩ := hok
  rcases runWorkerStep_cases lt w reply lt1 w1 h with
    ⟨hpc, hlt, -, -, rfl⟩ | ⟨hpc, hlt, -, -, rfl⟩ | ⟨hpc, hlt, -, rfl⟩ | ⟨hpc, -, -, rfl⟩ |
    ⟨sc, hpc, -, -, rfl⟩ | ⟨sc, hpc, -, rfl⟩
  all_goals
    simp [hpc, PC.busy, PC.waiting, PC.storing] at h3 h4 h5 h6 h8 h9
    constructor <;> simp [PC.busy, PC.waiting, PC.storing] <;> omega

/-! ## Events of the running program -/

theorem Sys.step_worker (s : Sys) (j : Nat) (reply : Reply) (s1 : Sys)
    (h : s.step (.worker j reply) = some s1) :
    ∃ w lt1 w1, s.workers[j]? = some w ∧ s.lt.runWorkerStep w reply = some (lt1, w1) ∧
      s1 = { s with lt := lt1, workers := s.workers.set j w1,
                    wg := (wgDone s.wg (decide (w1.pc = .done))).1,
                    panicked := (wgDone s.wg (decide (w1.pc = .done))).2 } := by
  unfold Sys.step at h
  cases hp : s.panicked with
  | true => simp [hp] at h
  | false =>
    simp only [hp, Bool.false_eq_true, if_false] at h
    cases hw : s.workers[j]? with
    | none => simp [hw] at h
    | some w =>
      simp only [hw] at h
      cases hs : s.lt.runWorkerStep w reply with
      | none => simp [hs] at h
      | some p =>
        obtain ⟨lt1, w1⟩ := p
        simp only [hs, Option.some.injEq] at h
        exact ⟨w, lt1, w1, rfl, hs, h.symm⟩

theorem StopStep_cases (lt : LoadTester) (c : StopCall) (lt1 : LoadTester) (c1 : StopCall)
    (h : lt.StopStep c = some (lt1, c1)) :
    (c.returned = false ∧ c.i < lt.concurrency ∧ lt.stopCh.len < lt.stopCh.cap ∧
        lt1 = { lt with stopCh := { lt.stopCh with len := lt.stopCh.len + 1 } } ∧
        c1 = { c with i := c.i + 1 }) ∨
      (c.returned = false ∧ ¬ c.i < lt.concurrency ∧ lt1 = lt ∧
        c1 = { c with returned := true }) := by
  unfold LoadTester.StopStep at h
  cases hr : c.returned with
  | true => simp [hr] at h
  | false =>
    simp only [hr, Bool.false_eq_true, if_false] at h
    by_cases hlt : c.i < lt.concurrency
    · simp only [hlt, if_true] at h
      by_cases hlen : lt.stopCh.len < lt.stopCh.cap
      · simp only [Chan.send, hlen, if_true, Option.some.injEq, Prod.mk.injEq] at h
        exact Or.inl ⟨rfl, hlt, hlen, h.1.symm, h.2.symm⟩
      · simp [Chan.send, hlen] at h
    · simp only [hlt, if_false, Option.some.injEq, Prod.mk.injEq] at h
      exact Or.inr ⟨rfl, hlt, h.1.symm, h.2.symm⟩

theorem Sys.step_stop (s : Sys) (k : Nat) (s1 : Sys) (h : s.step (.stop k) = some s1) :
    ∃ c lt1 c1, s.stops[k]? = some c ∧ s.lt.StopStep c = some (lt1, c1) ∧
      s1 = { s with lt := lt1, stops := s.stops.set k c1 } := by
  unfold Sys.step at h
  cases hp : s.panicked with
  | true => simp [hp] at h
  | false =>
    simp only [hp, Bool.false_eq_true, if_false] at h
    cases hw : s.stops[k]? with
    | none => simp [hw] at h
    | some c =>
      simp only [hw] at h
      cases hs : s.lt.StopStep c with
      | none => simp [hs] at h
      | some p =>
        obtain ⟨lt1, c1⟩ := p
        simp only [hs, Option.some.injEq] at h
        exact ⟨c, lt1, c1, rfl, hs, h.symm⟩

theorem Sys.step_callStop (s : Sys) (s1 : Sys) (h : s.step .callStop = some s1) :
    s1 = { s with stops := s.stops ++ [StopCall.new] } := by
  unfold Sys.step at h
  cases hp : s.panicked with
  | true => simp [hp] at h
  | false =>
    simp only [hp, Bool.false_eq_true, if_false, Option.some.injEq] at h
    exact h.symm

/-- An event that is not an action of a worker leaves the workers and the
histogram as they are. -/
theorem Sys.step_other (s : Sys) (e : Event) (s1 : Sys) (he : e.isWorker = false)
    (h : s.step e = some s1) :
    s1.workers = s.workers ∧ s1.lt.result = s.lt.result := by
  cases e with
  | worker j reply => simp [Event.isWorker] at he
  | callStop =>
    have := Sys.step_callStop s s1 h
    subst this
    exact ⟨rfl, rfl⟩
  | stop k =>
    obtain ⟨c, lt1, c1, -, hs, rfl⟩ := Sys.step_stop s k s1 h
    rcases StopStep_cases _ _ _ _ hs with ⟨-, -, -, rfl, -⟩ | ⟨-, -, rfl, -⟩
    · exact ⟨rfl, rfl⟩
    · exact ⟨rfl, rfl⟩

/-- An event that is not an action of a worker leaves the `WaitGroup` alone. -/
theorem Sys.step_other_wg (s : Sys) (e : Event) (s1 : Sys) (he : e.isWorker = false)
    (h : s.step e = some s1) : s1.wg = s.wg ∧ s1.panicked = s.panicked := by
  cases e with
  | worker j reply => simp [Event.isWorker] at he
  | callStop =>
    have := Sys.step_callStop s s1 h
    subst this
    exact ⟨rfl, rfl⟩
  | stop k =>
    obtain ⟨c, lt1, c1, -, hs, rfl⟩ := Sys.step_stop s k s1 h
    exact ⟨rfl, rfl⟩

/-- A property kept by every event of a class holds after every schedule of
events of the class. -/
theorem Sys.run_invariant (Q : Event → Bool) (P : Sys → Prop)
    (hstep : ∀ s e s1, Q e = true → P s → s.step e = some s1 → P s1)
    (es : List Event) (s s1 : Sys) (hes : es.all Q = true) (hP : P s)
    (h : s.run es = some s1) : P s1 := by
  induction es generalizing s with
  | nil =>
    simp only [Sys.run, Option.some.injEq] at h
    exact h ▸ hP
  | cons e t ih =>
    simp only [List.all_cons, Bool.and_eq_true] at hes
    simp only [Sys.run] at h
    cases hs : s.step e with
    | none => simp [hs] at h
    | some s2 =>
      simp only [hs] at h
      exact ih s2 hes.2 (hstep s e s2 hes.1 hP hs) h

theorem Sys.run_invariant_all (P : Sys → Prop)
    (hstep : ∀ s e s1, P s → s.step e = some s1 → P s1)
    (es : List Event) (s s1 : Sys) (hP : P s) (h : s.run es = some s1) : P s1 :=
  Sys.run_invariant (fun _ => true) P (fun s e s1 _ => hstep s e s1) es s s1 (by simp) hP h

theorem Sys.live_zero_iff (s : Sys) : s.live = 0 ↔ ∀ w ∈ s.workers, w.pc = .done := by
  constructor
  · intro h w hw
    have := sum_map_zero Worker.live s.workers h w hw
    unfold Worker.live at this
    by_contra hne
    simp [hne] at this
  · intro h
    unfold Sys.live
    rw [sum_map_const Worker.live s.workers 0 (fun w hw => by simp [Worker.live, h w hw])]
    omega

/-- While the counter of the `WaitGroup` counts the workers that have not
returned, `Start` returns exactly when every worker has returned. -/
theorem Sys.StartReturned_iff (s : Sys) (hc : s.counted) :
    s.StartReturned = true ↔ ∀ w ∈ s.workers, w.pc = .done := by
  obtain ⟨hp, hwg, -⟩ := hc
  rw [← Sys.live_zero_iff]
  simp only [Sys.StartReturned, hp, Bool.not_false, Bool.true_and, decide_eq_true_eq]
  omega

theorem Sys.returned_of_live (s : Sys) (hc : s.counted) (h : s.live = 0) :
    s.StartReturned = true :=
  (Sys.StartReturned_iff s hc).2 ((Sys.live_zero_iff s).1 h)

theorem wrapInt32_id (x : Int) (h1 : -(2 ^ 31) ≤ x) (h2 : x < 2 ^ 31) : wrapInt32 x = x := by
  unfold wrapInt32
  omega

theorem runWorkerStep_not_done (lt : LoadTester) (w : Worker) (reply : Reply)
    (lt1 : LoadTester) (w1 : Worker) (h : lt.runWorkerStep w reply = some (lt1, w1)) :
    w.pc ≠ .done := by
  intro hd
  simp [LoadTester.runWorkerStep, hd] at h

/-- The counter of the `WaitGroup` keeps counting the workers that have not
returned, and no `Done` panics. -/
theorem Sys.counted_step (s : Sys) (e : Event) (s1 : Sys) (hP : s.counted)
    (h : s.step e = some s1) : s1.counted := by
  cases he : e.isWorker with
  | false =>
    obtain ⟨h1, h2⟩ := Sys.step_other_wg s e s1 he h
    have h3 := (Sys.step_other s e s1 he h).1
    unfold Sys.counted Sys.live at *
    rw [h1, h2, h3]
    exact hP
  | true =>
    cases e with
    | callStop => simp [Event.isWorker] at he
    | stop k => simp [Event.isWorker] at he
    | worker j reply =>
      obtain ⟨hp, hwg, hlt⟩ := hP
      obtain ⟨w, lt1, w1, hw, hs, rfl⟩ := Sys.step_worker s j reply s1 h
      have e1 : ((s.workers.set j w1).map Worker.live).sum + w.live
          = (s.workers.map Worker.live).sum + w1.live :=
        sum_map_set Worker.live s.workers j w w1 hw
      have l1 : w.live = 1 := by
        simp [Worker.live, runWorkerStep_not_done _ _ _ _ _ hs]
      unfold Sys.live at hwg
      by_cases hd : w1.pc = .done
      · have l2 : w1.live = 0 := by simp [Worker.live, hd]
        have hpos : 1 ≤ s.wg := by omega
        have hadd : wgAdd s.wg (-1) = .ok (s.wg - 1) := by
          have : wrapInt32 (s.wg + -1) = s.wg - 1 := by
            rw [wrapInt32_id _ (by omega) (by omega)]
            omega
          have hn : ¬ (s.wg - 1 < 0) := by omega
          simp only [wgAdd, this, hn, if_false]
        refine ⟨?_, ?_, ?_⟩
        · simp [wgDone, hd, hadd]
        · simp only [wgDone, hd, decide_True, if_true, hadd, Sys.live]
          omega
        · simp only [wgDone, hd, decide_True, if_true, hadd]
          omega
      · have l2 : w1.live = 1 := by simp [Worker.live, hd]
        refine ⟨?_, ?_, ?_⟩
        · simp [wgDone, hd]
        · simp only [wgDone, hd, decide_False, Bool.false_eq_true, if_false, Sys.live]
          omega
        · simp only [wgDone, hd, decide_False, Bool.false_eq_true, if_false]
          exact hlt

/-! ## Invariants are kept -/

theorem Sys.allOk_step (s : Sys) (e : Event) (s1 : Sys) (hP : s.allOk)
    (h : s.step e = some s1) : s1.allOk := by
  cases he : e.isWorker with
  | false =>
    have := (Sys.step_other s e s1 he h).1
    unfold Sys.allOk
    rw [this]
    exact hP
  | true =>
    cases e with
    | worker j reply =>
      obtain ⟨w, lt1, w1, hw, hs, rfl⟩ := Sys.step_worker s j reply s1 h
      intro x hx
      rcases mem_set_cases _ _ _ _ hx with hx | rfl
      · exact hP x hx
      · exact Worker.ok_step _ _ _ _ _ hs (hP w (mem_of_getElem? _ _ _ hw))
    | callStop => simp [Event.isWorker] at he
    | stop k => simp [Event.isWorker] at he

theorem Sys.shape_step (N : Int) (L : Nat) (s : Sys) (e : Event) (s1 : Sys)
    (hP : s.shape N L) (h : s.step e = some s1) : s1.shape N L := by
  cases he : e.isWorker with
  | false =>
    have := (Sys.step_other s e s1 he h).1
    unfold Sys.shape
    rw [this]
    exact hP
  | true =>
    cases e with
    | worker j reply =>
      obtain ⟨w, lt1, w1, hw, hs, rfl⟩ := Sys.step_worker s j reply s1 h
      refine ⟨by simpa using hP.1, fun x hx => ?_⟩
      rcases mem_set_cases _ _ _ _ hx with hx | rfl
      · exact hP.2 x hx
      · have hn := hP.2 w (mem_of_getElem? _ _ _ hw)
        rcases runWorkerStep_cases _ _ _ _ _ hs with
          ⟨-, -, -, -, rfl⟩ | ⟨-, -, -, -, rfl⟩ | ⟨-, -, -, rfl⟩ | ⟨-, -, -, rfl⟩ |
          ⟨sc, -, -, -, rfl⟩ | ⟨sc, -, -, rfl⟩ <;> exact hn
    | callStop => simp [Event.isWorker] at he
    | stop k => simp [Event.isWorker] at he

theorem Worker.sent_le (w : Worker) (h : w.ok) : w.sent ≤ w.n.toNat := by
  obtain ⟨h1, h2, h3, h4, -, -, -, -, -⟩ := h
  cases hpc : w.pc <;> simp [hpc, PC.busy] at h3 h4 <;> omega

theorem Worker.stored_le (w : Worker) (h : w.ok) : w.stored ≤ w.answered ∧ w.answered ≤ w.sent := by
  obtain ⟨-, -, -, -, h5, h6, -, -, -⟩ := h
  omega



theorem Sys.stored_le_budget (s : Sys) (h : s.allOk) : s.stored ≤ s.budget :=
  sum_map_le _ _ _ (fun w hw => by
    have h1 := Worker.stored_le w (h w hw)
    have h2 := Worker.sent_le w (h w hw)
    omega)

theorem runWorkerStep_frame (lt : LoadTester) (w : Worker) (reply : Reply)
    (lt1 : LoadTester) (w1 : Worker) (h : lt.runWorkerStep w reply = some (lt1, w1)) :
    w1.n = w.n ∧ lt1.requests = lt.requests ∧ lt1.concurrency = lt.concurrency ∧
      lt1.stopCh.cap = lt.stopCh.cap ∧
      ((w1.stored = w.stored ∧ lt1.result = lt.result) ∨
        (∃ sc, w.pc = .store sc ∧ w1.stored = w.stored + 1 ∧
          lt1.result = (lt.storeStatusCode sc).result)) := by
  rcases runWorkerStep_cases _ _ _ _ _ h with
    ⟨-, -, -, rfl, rfl⟩ | ⟨-, -, -, rfl, rfl⟩ | ⟨-, -, rfl, rfl⟩ | ⟨-, -, rfl, rfl⟩ |
    ⟨sc, -, -, rfl, rfl⟩ | ⟨sc, hpc, rfl, rfl⟩
  · exact ⟨rfl, rfl, rfl, rfl, Or.inl ⟨rfl, rfl⟩⟩
  · exact ⟨rfl, rfl, rfl, rfl, Or.inl ⟨rfl, rfl⟩⟩
  · exact ⟨rfl, rfl, rfl, rfl, Or.inl ⟨rfl, rfl⟩⟩
  · exact ⟨rfl, rfl, rfl, rfl, Or.inl ⟨rfl, rfl⟩⟩
  · exact ⟨rfl, rfl, rfl, rfl, Or.inl ⟨rfl, rfl⟩⟩
  · exact ⟨rfl, rfl, rfl, rfl, Or.inr ⟨sc, hpc, rfl, rfl⟩⟩

/-- A worker event, with the sums over the workers related before and after. -/
theorem Sys.step_worker_sum (s : Sys) (j : Nat) (reply : Reply) (s1 : Sys)
    (h : s.step (.worker j reply) = some s1) :
    ∃ w w1, s.workers[j]? = some w ∧ s.lt.runWorkerStep w reply = some (s1.lt, w1) ∧
      s1.workers = s.workers.set j w1 ∧ s1.stops = s.stops ∧
      ∀ f : Worker → Nat, (s1.workers.map f).sum + f w = (s.workers.map f).sum + f w1 := by
  obtain ⟨w, lt1, w1, hw, hs, rfl⟩ := Sys.step_worker s j reply s1 h
  exact ⟨w, w1, hw, hs, rfl, rfl, fun f => sum_map_set f s.workers j w w1 hw⟩

theorem Sys.good_step (s : Sys) (e : Event) (s1 : Sys) (hP : s.good)
    (h : s.step e = some s1) : s1.good := by
  cases he : e.isWorker with
  | false =>
    obtain ⟨hw, hr⟩ := Sys.step_other s e s1 he h
    unfold Sys.good Sys.allOk Sys.stored Sys.budget at *
    rw [hw, hr]
    exact hP
  | true =>
    cases e with
    | callStop => simp [Event.isWorker] at he
    | stop k => simp [Event.isWorker] at he
    | worker j reply =>
      have hok1 := Sys.allOk_step s _ s1 hP.1 h
      have hsb := Sys.stored_le_budget s1 hok1
      obtain ⟨hok, htot, hbud, hnd⟩ := hP
      obtain ⟨w, w1, hw, hs, -, -, hsum⟩ := Sys.step_worker_sum s j reply s1 h
      have e1 : s1.stored + w.stored = s.stored + w1.stored := hsum Worker.stored
      have e2 : s1.budget + w.n.toNat = s.budget + w1.n.toNat := hsum (fun w => w.n.toNat)
      obtain ⟨hn, -, -, -, hcase⟩ := runWorkerStep_frame _ _ _ _ _ hs
      rw [hn] at e2
      refine ⟨hok1, ?_, by omega, ?_⟩
      · rcases hcase with ⟨h1, h2⟩ | ⟨sc, -, h1, h2⟩
        · rw [h2]; omega
        · have hb : mapIndex s.lt.result sc + 1 < uintMod := by
            have := mapIndex_le_total s.lt.result sc
            omega
          rw [h2, store_total _ _ hb]
          omega
      · rcases hcase with ⟨h1, h2⟩ | ⟨sc, -, h1, h2⟩
        · rw [h2]; exact hnd
        · rw [h2]; exact store_keys_nodup _ _ hnd

theorem Sys.quiet_step (s : Sys) (e : Event) (s1 : Sys) (he : e.isWorker = true)
    (hP : s.quiet) (h : s.step e = some s1) : s1.quiet := by
  cases e with
  | callStop => simp [Event.isWorker] at he
  | stop k => simp [Event.isWorker] at he
  | worker j reply =>
    obtain ⟨hlen, htk⟩ := hP
    obtain ⟨w, lt1, w1, hw, hs, rfl⟩ := Sys.step_worker s j reply s1 h
    have hw0 := htk w (mem_of_getElem? _ _ _ hw)
    have key : lt1.stopCh.len = 0 ∧ w1.taken = 0 := by
      rcases runWorkerStep_cases _ _ _ _ _ hs with
        ⟨-, -, hpos, -, -⟩ | ⟨-, -, -, rfl, rfl⟩ | ⟨-, -, rfl, rfl⟩ | ⟨-, -, rfl, rfl⟩ |
        ⟨sc, -, -, rfl, rfl⟩ | ⟨sc, -, rfl, rfl⟩
      · omega
      · exact ⟨hlen, hw0⟩
      · exact ⟨hlen, hw0⟩
      · exact ⟨hlen, hw0⟩
      · exact ⟨hlen, hw0⟩
      · exact ⟨by rw [(store_other_fields _ _).1]; exact hlen, hw0⟩
    refine ⟨key.1, fun x hx => ?_⟩
    rcases mem_set_cases _ _ _ _ hx with hx | rfl
    · exact htk x hx
    · exact key.2

theorem Sys.silent_step (s : Sys) (e : Event) (s1 : Sys) (he : e.failing = true)
    (hP : s.silent) (h : s.step e = some s1) : s1.silent := by
  have hok1 := Sys.allOk_step s _ s1 hP.1 h
  cases e with
  | callStop => simp [Event.failing] at he
  | stop k => simp [Event.failing] at he
  | worker j reply =>
    cases reply with
    | response sc => simp [Event.failing] at he
    | transportError =>
      obtain ⟨hok, hres, hans⟩ := hP
      obtain ⟨w, lt1, w1, hw, hs, rfl⟩ := Sys.step_worker s j _ s1 h
      have hw0 := hans w (mem_of_getElem? _ _ _ hw)
      have hwok := hok w (mem_of_getElem? _ _ _ hw)
      have key : lt1.result = [] ∧ w1.answered = 0 := by
        rcases runWorkerStep_cases _ _ _ _ _ hs with
          ⟨-, -, -, rfl, rfl⟩ | ⟨-, -, -, rfl, rfl⟩ | ⟨-, -, rfl, rfl⟩ | ⟨-, -, rfl, rfl⟩ |
          ⟨sc, -, hr, -, -⟩ | ⟨sc, hpc, -, -⟩
        · exact ⟨hres, hw0⟩
        · exact ⟨hres, hw0⟩
        · exact ⟨hres, hw0⟩
        · exact ⟨hres, hw0⟩
        · cases hr
        · have := hwok.stored_eq
          simp [hpc, PC.storing] at this
          omega
      refine ⟨hok1, key.1, fun x hx => ?_⟩
      rcases mem_set_cases _ _ _ _ hx with hx | rfl
      · exact hans x hx
      · exact key.2

/-! ## Stop tokens and workers -/

theorem sum_le_length {α : Type} (f : α → Nat) (l : List α) (h : ∀ y ∈ l, f y ≤ 1) :
    (l.map f).sum ≤ l.length := by
  induction l with
  | nil => simp
  | cons a t ih =>
    have h1 := h a (List.mem_cons_self a t)
    have h2 := ih (fun y hy => h y (List.mem_cons_of_mem a hy))
    simp only [List.map_cons, List.sum_cons, List.length_cons]
    omega

theorem sum_lt_length {α : Type} (f : α → Nat) (l : List α) (j : Nat) (x : α)
    (h : ∀ y ∈ l, f y ≤ 1) (hj : l[j]? = some x) (hx : f x = 0) :
    (l.map f).sum < l.length := by
  induction l generalizing j with
  | nil => simp at hj
  | cons a t ih =>
    have h1 := h a (List.mem_cons_self a t)
    have h2 : ∀ y ∈ t, f y ≤ 1 := fun y hy => h y (List.mem_cons_of_mem a hy)
    simp only [List.map_cons, List.sum_cons, List.length_cons]
    cases j with
    | zero =>
      simp only [List.getElem?_cons_zero, Option.some.injEq] at hj
      subst hj
      have := sum_le_length f t h2
      omega
    | succ j =>
      simp only [List.getElem?_cons_succ] at hj
      have := ih j h2 hj
      omega

theorem Sys.halted_step (s : Sys) (e : Event) (s1 : Sys) (he : e.isWorker = true)
    (hP : s.halted) (h : s.step e = some s1) : s1.halted ∧ s1.live + 1 = s.live := by
  have hok1 := Sys.allOk_step s _ s1 hP.1 h
  cases e with
  | callStop => simp [Event.isWorker] at he
  | stop k => simp [Event.isWorker] at he
  | worker j reply =>
    obtain ⟨hok, hres, hacc, hall⟩ := hP
    obtain ⟨w, w1, hw, hs, hws, -, hsum⟩ := Sys.step_worker_sum s j reply s1 h
    have hmem := mem_of_getElem? _ _ _ hw
    have hwok := hok w hmem
    obtain ⟨hsent, hpc⟩ := hall w hmem
    have e1 : s1.taken + w.taken = s.taken + w1.taken := hsum Worker.taken
    have e2 : s1.live + w.live = s.live + w1.live := hsum Worker.live
    have hlen : s1.workers.length = s.workers.length := by rw [hws]; simp
    have hw0 : w.pc = .top → w.taken = 0 := by
      intro ht
      have h7 := hwok.taken_le
      have h8 := hwok.taken_done
      rcases Nat.lt_or_ge w.taken 1 with h9 | h9
      · omega
      · have := h8 (by omega)
        rw [ht] at this
        cases this
    have key : s1.lt.result = [] ∧ s1.lt.stopCh.len + w1.taken = s.lt.stopCh.len + w.taken ∧
        w1.sent = 0 ∧ w1.pc = .done ∧ w.pc = .top := by
      rcases runWorkerStep_cases _ _ _ _ _ hs with
        ⟨ht, -, hpos, h1, rfl⟩ | ⟨ht, -, hz, -, -⟩ | ⟨ht, -, h1, rfl⟩ | ⟨hi, -, -, -⟩ |
        ⟨sc, hi, -, -, -⟩ | ⟨sc, hi, -, -⟩
      · rw [h1]
        refine ⟨hres, ?_, hsent, rfl, ht⟩
        simp only
        omega
      · exfalso
        have := sum_lt_length Worker.taken s.workers j w
          (fun y hy => (hok y hy).taken_le) hw (hw0 ht)
        unfold Sys.taken at hacc
        omega
      · rw [h1]
        exact ⟨hres, rfl, hsent, rfl, ht⟩
      · rcases hpc with hpc | hpc <;> rw [hpc] at hi <;> cases hi
      · rcases hpc with hpc | hpc <;> rw [hpc] at hi <;> cases hi
      · rcases hpc with hpc | hpc <;> rw [hpc] at hi <;> cases hi
    obtain ⟨k1, k2, k3, k4, k5⟩ := key
    have l1 : w.live = 1 := by simp [Worker.live, k5]
    have l2 : w1.live = 0 := by simp [Worker.live, k4]
    refine ⟨⟨hok1, k1, by omega, fun x hx => ?_⟩, by omega⟩
    rw [hws] at hx
    rcases mem_set_cases _ _ _ _ hx with hx | rfl
    · exact hall x hx
    · exact ⟨k3, Or.inr k4⟩

/-- Along a schedule of worker events from a halted state, every event is the
return of one more worker. -/
theorem Sys.run_halted (es : List Event) (s s1 : Sys) (hes : es.all Event.isWorker = true)
    (hP : s.halted) (h : s.run es = some s1) : s1.halted ∧ s1.live + es.length = s.live := by
  induction es generalizing s with
  | nil =>
    simp only [Sys.run, Option.some.injEq] at h
    subst h
    exact ⟨hP, rfl⟩
  | cons e t ih =>
    simp only [List.all_cons, Bool.and_eq_true] at hes
    simp only [Sys.run] at h
    cases hs : s.step e with
    | none => simp [hs] at h
    | some s2 =>
      simp only [hs] at h
      obtain ⟨h2, l2⟩ := Sys.halted_step s e s2 hes.1 hP hs
      obtain ⟨h3, l3⟩ := ih s2 hes.2 h2 h
      exact ⟨h3, by simp only [List.length_cons]; omega⟩

/-! ## Termination -/

theorem Worker.fuel_decreases (lt : LoadTester) (w : Worker) (reply : Reply)
    (lt1 : LoadTester) (w1 : Worker) (h : lt.runWorkerStep w reply = some (lt1, w1)) :
    w1.fuel < w.fuel := by
  rcases runWorkerStep_cases _ _ _ _ _ h with
    ⟨ht, hlt, -, -, rfl⟩ | ⟨ht, hlt, -, -, rfl⟩ | ⟨ht, -, -, rfl⟩ | ⟨ht, -, -, rfl⟩ |
    ⟨sc, ht, -, -, rfl⟩ | ⟨sc, ht, -, rfl⟩ <;>
  simp only [Worker.fuel, ht] <;> omega

theorem Sys.fuel_step (s : Sys) (e : Event) (s1 : Sys) (h : s.step e = some s1) :
    s1.fuel + (if e.isWorker then 1 else 0) ≤ s.fuel := by
  cases he : e.isWorker with
  | false =>
    have := (Sys.step_other s e s1 he h).1
    unfold Sys.fuel
    rw [this]
    simp
  | true =>
    cases e with
    | callStop => simp [Event.isWorker] at he
    | stop k => simp [Event.isWorker] at he
    | worker j reply =>
      obtain ⟨w, w1, hw, hs, -, -, hsum⟩ := Sys.step_worker_sum s j reply s1 h
      have e1 : s1.fuel + w.fuel = s.fuel + w1.fuel := hsum Worker.fuel
      have := Worker.fuel_decreases _ _ _ _ _ hs
      simp only [if_true]
      omega

/-- No schedule contains more worker events than the fuel of its first state. -/
theorem Sys.run_fuel (es : List Event) (s s1 : Sys) (h : s.run es = some s1) :
    s1.fuel + es.countP Event.isWorker ≤ s.fuel := by
  induction es generalizing s with
  | nil =>
    simp only [Sys.run, Option.some.injEq] at h
    subst h
    simp
  | cons e t ih =>
    simp only [Sys.run] at h
    cases hs : s.step e with
    | none => simp [hs] at h
    | some s2 =>
      simp only [hs] at h
      have h1 := Sys.fuel_step s e s2 hs
      have h2 := ih s2 h
      rw [List.countP_cons]
      cases he : e.isWorker <;> simp [he] at h1 ⊢ <;> omega

/-- A worker that has not returned can always act: workers never wait. -/
theorem Sys.progress (s : Sys) (hc : s.counted) (h : s.StartReturned = false) (reply : Reply) :
    ∃ j, (s.step (.worker j reply)).isSome = true := by
  have h1 : ¬ ∀ w ∈ s.workers, w.pc = .done := by
    rw [← Sys.StartReturned_iff s hc, h]
    simp
  push_neg at h1
  obtain ⟨w, hw, hpc⟩ := h1
  obtain ⟨j, hj⟩ := List.getElem?_of_mem hw
  refine ⟨j, ?_⟩
  have := runWorkerStep_isSome s.lt w reply hpc
  cases hs : s.lt.runWorkerStep w reply with
  | none => simp [hs] at this
  | some p => simp [Sys.step, hc.1, hj, hs]

/-- From every state the workers can be run to their return, whatever the
transport answers. -/
theorem Sys.complete (reply : Reply) (s : Sys) (hc : s.counted) :
    ∃ es s1, (∀ e ∈ es, ∃ j, e = .worker j reply) ∧ s.run es = some s1 ∧
      s1.StartReturned = true := by
  generalize hf : s.fuel = f
  induction f using Nat.strong_induction_on generalizing s with
  | _ f ih =>
    cases hr : s.StartReturned with
    | true => exact ⟨[], s, by simp, rfl, hr⟩
    | false =>
      obtain ⟨j, hj⟩ := Sys.progress s hc hr reply
      cases hs : s.step (.worker j reply) with
      | none => simp [hs] at hj
      | some s2 =>
        have h1 := Sys.fuel_step s _ s2 hs
        simp only [Event.isWorker, if_true] at h1
        obtain ⟨es, s1, h2, h3, h4⟩ :=
          ih s2.fuel (by omega) s2 (Sys.counted_step s _ s2 hc hs) rfl
        refine ⟨.worker j reply :: es, s1, ?_, ?_, h4⟩
        · intro e he
          rcases List.mem_cons.1 he with rfl | he
          · exact ⟨j, rfl⟩
          · exact h2 e he
        · simp [Sys.run, hs, h3]

/-! ## The engine as constructed and the program as started -/

theorem NewLoadTester_ok (v : String → String → Bool) (url m ua : String) (tmo T W : Int)
    (lt : LoadTester) (h : NewLoadTester v url m ua tmo T W = .ok lt) :
    v m url = true ∧ 0 ≤ W ∧ lt.requests = T ∧ lt.concurrency = W ∧ lt.result = [] ∧
      lt.stopCh = { cap := W.toNat, len := 0 } := by
  unfold NewLoadTester at h
  by_cases hv : v m url = true
  · by_cases hW : W < 0
    · simp [hv, hW] at h
    · simp only [hv, hW, if_true, if_false, Except.ok.injEq] at h
      subst h
      exact ⟨hv, by omega, rfl, rfl, rfl, rfl⟩
  · simp [hv] at h

theorem NewLoadTester_succeeds (v : String → String → Bool) (url m ua : String) (tmo T W : Int)
    (hv : v m url = true) (hW : 0 ≤ W) :
    ∃ lt, NewLoadTester v url m ua tmo T W = .ok lt := by
  have : ¬ W < 0 := by omega
  simp only [NewLoadTester, hv, this, if_true, if_false]
  exact ⟨_, rfl⟩

theorem goDiv_pos (a b : Int) (hb : 0 < b) : goDiv a b = .ok (a.tdiv b) := by
  have h1 : ¬ b = 0 := by omega
  have h2 : ¬ (a = -(2 ^ 63) ∧ b = -1) := by omega
  simp only [goDiv, h1, h2, if_false]

theorem goDiv_ne_zero (a b : Int) (hb : b ≠ 0) : ∃ q, goDiv a b = .ok q := by
  unfold goDiv
  simp only [hb, if_false]
  split
  · exact ⟨_, rfl⟩
  · exact ⟨_, rfl⟩

theorem spawn_ok (lt : LoadTester) (q : Int) (hq : goDiv lt.requests lt.concurrency = .ok q)
    (k : Nat) : lt.spawn k = .ok (List.replicate k (Worker.new q)) := by
  induction k with
  | zero => rfl
  | succ k ih => simp only [LoadTester.spawn, hq, ih, List.replicate_succ]

theorem wgAdd_fresh (W : Int) (h0 : 0 ≤ W) (h31 : W < 2 ^ 31) : wgAdd 0 W = .ok W := by
  have h1 : wrapInt32 (0 + W) = W := by
    rw [wrapInt32_id _ (by omega) (by omega)]
    omega
  have h2 : ¬ W < 0 := by omega
  simp only [wgAdd, h1, h2, if_false]

theorem wgAdd_panics (W : Int) (h1 : 2 ^ 31 ≤ W) (h2 : W < 2 ^ 32) :
    wgAdd 0 W = .error .negativeWaitGroupCounter := by
  have h : wrapInt32 (0 + W) < 0 := by
    unfold wrapInt32
    omega
  simp only [wgAdd, h, if_true]

/-- What `Start` returns when it does not panic. -/
theorem Start_inv (lt : LoadTester) (stops : List StopCall) (s0 : Sys)
    (h : lt.Start stops = .ok s0) :
    ∃ N, s0.lt = lt ∧ s0.stops = stops ∧
      s0.workers = List.replicate lt.concurrency.toNat (Worker.new N) ∧
      s0.panicked = false ∧ wgAdd 0 lt.concurrency = .ok s0.wg ∧
      (0 < lt.concurrency → goDiv lt.requests lt.concurrency = .ok N) := by
  unfold LoadTester.Start at h
  cases hw : wgAdd 0 lt.concurrency with
  | error e => simp [hw] at h
  | ok v =>
    simp only [hw] at h
    by_cases hz : lt.concurrency = 0
    · simp only [hz, Int.toNat_zero, LoadTester.spawn, Except.ok.injEq] at h
      subst h
      exact ⟨0, rfl, rfl, by simp [hz], rfl, rfl, fun hp => by omega⟩
    · obtain ⟨q, hq⟩ := goDiv_ne_zero lt.requests lt.concurrency hz
      simp only [spawn_ok lt q hq, Except.ok.injEq] at h
      subst h
      exact ⟨q, rfl, rfl, rfl, rfl, rfl, fun _ => hq⟩

theorem Start_ok (lt : LoadTester) (stops : List StopCall) (h0 : 0 ≤ lt.concurrency)
    (h31 : lt.concurrency < 2 ^ 31) :
    ∃ n, lt.Start stops
        = .ok { lt := lt, workers := List.replicate lt.concurrency.toNat (Worker.new n),
                stops := stops, wg := lt.concurrency, panicked := false } ∧
      (0 < lt.concurrency → goDiv lt.requests lt.concurrency = .ok n) := by
  by_cases hz : lt.concurrency = 0
  · refine ⟨0, ?_, fun hp => by omega⟩
    rw [LoadTester.Start, wgAdd_fresh _ h0 h31]
    simp [hz, LoadTester.spawn]
  · obtain ⟨q, hq⟩ := goDiv_ne_zero lt.requests lt.concurrency hz
    refine ⟨q, ?_, fun _ => hq⟩
    simp only [LoadTester.Start, wgAdd_fresh _ h0 h31, spawn_ok lt q hq]

theorem Start_not_divideByZero (lt : LoadTester) (stops : List StopCall) :
    lt.Start stops ≠ .error .divideByZero := by
  unfold LoadTester.Start
  cases hw : wgAdd 0 lt.concurrency with
  | error e =>
    unfold wgAdd at hw
    split at hw
    · simp only [Except.error.injEq] at hw
      subst hw
      simp
    · simp at hw
  | ok v =>
    simp only
    by_cases hz : lt.concurrency = 0
    · simp [hz, LoadTester.spawn]
    · obtain ⟨q, hq⟩ := goDiv_ne_zero lt.requests lt.concurrency hz
      simp [spawn_ok lt q hq]

/-- A state made of `L` fresh workers of budget `N`. -/
theorem started_invariants (s0 : Sys) (N : Int) (L : Nat)
    (hws : s0.workers = List.replicate L (Worker.new N)) :
    s0.allOk ∧ s0.shape N L ∧ s0.fuel = L * (3 * N.toNat + 1) ∧
      s0.live = L ∧ s0.taken = 0 ∧ s0.stored = 0 ∧ s0.budget = L * N.toNat ∧
      (∀ w ∈ s0.workers, w = Worker.new N) := by
  have hmem : ∀ w ∈ s0.workers, w = Worker.new N := fun w hw => by
    rw [hws] at hw
    exact List.eq_of_mem_replicate hw
  have hlen : s0.workers.length = L := by rw [hws]; exact List.length_replicate _ _
  refine ⟨fun w hw => hmem w hw ▸ Worker.ok_new N, ⟨hlen, fun w hw => by rw [hmem w hw]; rfl⟩,
    ?_, ?_, ?_, ?_, ?_, hmem⟩
  · unfold Sys.fuel
    rw [sum_map_const _ _ (3 * N.toNat + 1) (fun w hw => by
      rw [hmem w hw]; simp [Worker.fuel, Worker.new]), hlen]
  · unfold Sys.live
    rw [sum_map_const _ _ 1 (fun w hw => by rw [hmem w hw]; simp [Worker.live, Worker.new]), hlen]
    omega
  · unfold Sys.taken
    rw [sum_map_const _ _ 0 (fun w hw => by rw [hmem w hw]; rfl)]
    omega
  · unfold Sys.stored
    rw [sum_map_const _ _ 0 (fun w hw => by rw [hmem w hw]; rfl)]
    omega
  · unfold Sys.budget
    rw [sum_map_const _ _ N.toNat (fun w hw => by rw [hmem w hw]; rfl), hlen]

/-- The method `Start` on an engine whose `concurrency` fits the counter of the
`WaitGroup`, with what holds of the state it leaves. -/
theorem Start_fresh (lt : LoadTester) (stops : List StopCall) (h0 : 0 ≤ lt.concurrency)
    (h31 : lt.concurrency < 2 ^ 31) :
    ∃ N s0, lt.Start stops = .ok s0 ∧ s0.lt = lt ∧ s0.stops = stops ∧
      s0.workers = List.replicate lt.concurrency.toNat (Worker.new N) ∧
      (0 < lt.concurrency → goDiv lt.requests lt.concurrency = .ok N) ∧
      s0.allOk ∧ s0.shape N lt.concurrency.toNat ∧
      s0.fuel = lt.concurrency.toNat * (3 * N.toNat + 1) ∧ s0.live = lt.concurrency.toNat ∧
      s0.taken = 0 ∧ s0.stored = 0 ∧ s0.budget = lt.concurrency.toNat * N.toNat ∧
      (∀ w ∈ s0.workers, w = Worker.new N) ∧ s0.counted := by
  obtain ⟨N, hN, hdiv⟩ := Start_ok lt stops h0 h31
  obtain ⟨h1, h2, h4, h5, h6, h7, h8, h9⟩ :=
    started_invariants
      ⟨lt, List.replicate lt.concurrency.toNat (Worker.new N), stops, lt.concurrency, false⟩
      N lt.concurrency.toNat rfl
  refine ⟨N, _, hN, rfl, rfl, rfl, hdiv, h1, h2, h4, h5, h6, h7, h8, h9, rfl, ?_, h31⟩
  rw [h5]
  simp only
  omega

theorem wgAdd_wraps_to_zero : wgAdd 0 (2 ^ 32) = .ok 0 := by
  have h : wrapInt32 (0 + 2 ^ 32) = 0 := by
    unfold wrapInt32
    omega
  simp only [wgAdd, h]
  simp

/-- When `Start` does not panic on a fresh engine with `1 <= W < 2 ^ 32`, then
`W < 2 ^ 31`. -/
theorem Start_ok_bound (lt : LoadTester) (stops : List StopCall) (s0 : Sys)
    (h : lt.Start stops = .ok s0) (h32 : lt.concurrency < 2 ^ 32) (h0 : 0 ≤ lt.concurrency) :
    lt.concurrency < 2 ^ 31 := by
  by_contra hge
  obtain ⟨N, -, -, -, -, hwg, -⟩ := Start_inv lt stops s0 h
  rw [wgAdd_panics _ (by omega) h32] at hwg
  simp at hwg

/-- The method `Start` with `2 ^ 32` workers: the counter of the `WaitGroup`
comes out 0. -/
theorem Start_wraps (lt : LoadTester) (hc : lt.concurrency = 2 ^ 32)
    (hr : lt.requests = 2 ^ 32) :
    ∃ k, lt.Start [] = .ok ⟨lt, List.replicate (k + 1) (Worker.new 1), [], 0, false⟩ := by
  have hq : goDiv lt.requests lt.concurrency = .ok 1 := by
    rw [hr, hc, goDiv_pos _ _ (by omega), Int.tdiv_eq_ediv (by omega) (by omega),
      Int.ediv_self (by omega)]
  have hk : lt.concurrency.toNat = (lt.concurrency.toNat - 1) + 1 := by omega
  have hwg : wgAdd 0 lt.concurrency = .ok 0 := by rw [hc]; exact wgAdd_wraps_to_zero
  refine ⟨lt.concurrency.toNat - 1, ?_⟩
  rw [← hk]
  simp only [LoadTester.Start, hwg, spawn_ok _ 1 hq]

/-- With the counter of the `WaitGroup` at 0 while workers exist, `Start` has
returned although a worker holds an answer it has not recorded yet. -/
theorem early_return (lt : LoadTester) (k : Nat) (hres : lt.result = [])
    (hlen : lt.stopCh.len = 0) :
    ∃ s, (⟨lt, List.replicate (k + 1) (Worker.new 1), [], 0, false⟩ : Sys).run
          [.worker 0 (.response 200), .worker 0 (.response 200)] = some s ∧
      s.StartReturned = true ∧ total s.lt.Result = 0 ∧ s.answered = 1 ∧ s.attempted = 1 ∧
      s.diagnostics = 0 := by
  refine ⟨⟨lt, Worker.mk 1 0 (.store 200) 1 0 0 1 0 :: List.replicate k (Worker.new 1),
    [], 0, false⟩, ?_, ?_, ?_, ?_, ?_, ?_⟩
  · simp [Sys.run, Sys.step, List.replicate_succ, LoadTester.runWorkerStep, Worker.new,
      Chan.recv, hlen, sendRequest, wgDone]
  · simp [Sys.StartReturned]
  · show total lt.result = 0
    rw [hres]
    rfl
  · simp only [Sys.answered, List.map_cons, List.sum_cons]
    rw [sum_map_const Worker.answered _ 0 (fun w hw => by
      rw [List.eq_of_mem_replicate hw]; rfl)]
    omega
  · simp only [Sys.attempted, List.map_cons, List.sum_cons]
    rw [sum_map_const Worker.sent _ 0 (fun w hw => by
      rw [List.eq_of_mem_replicate hw]; rfl)]
    omega
  · simp only [Sys.diagnostics, List.map_cons, List.sum_cons]
    rw [sum_map_const Worker.failed _ 0 (fun w hw => by
      rw [List.eq_of_mem_replicate hw]; rfl)]
    omega

/-! ## `Stop` with nothing else running -/

theorem Stop_sends (k : Nat) (lt : LoadTester) (c : StopCall) (hr : c.returned = false)
    (hi : c.i + k ≤ lt.concurrency) (hcap : lt.stopCh.len + k ≤ lt.stopCh.cap) :
    lt.Stop k c = ({ lt with stopCh := { lt.stopCh with len := lt.stopCh.len + k } },
      { c with i := c.i + k }) := by
  induction k generalizing lt c with
  | zero => simp [LoadTester.Stop]
  | succ k ih =>
    have h1 : c.i < lt.concurrency := by push_cast at hi; omega
    have h2 : lt.stopCh.len < lt.stopCh.cap := by omega
    simp only [LoadTester.Stop, LoadTester.StopStep, hr, h1, Chan.send, h2, if_true,
      Bool.false_eq_true, if_false]
    have hi1 : c.i + 1 + (k : Int) ≤ lt.concurrency := by push_cast at hi; omega
    have hc1 : lt.stopCh.len + 1 + k ≤ lt.stopCh.cap := by omega
    have e := ih { lt with stopCh := { lt.stopCh with len := lt.stopCh.len + 1 } }
      { i := c.i + 1, returned := false } rfl hi1 hc1
    simp only at e
    rw [e]
    have a1 : lt.stopCh.len + 1 + k = lt.stopCh.len + (k + 1) := by omega
    have a2 : c.i + 1 + (k : Int) = c.i + ((k + 1 : Nat) : Int) := by push_cast; omega
    rw [a1, a2]

theorem Stop_stuck (fuel : Nat) (lt : LoadTester) (c : StopCall)
    (h : lt.StopStep c = none) : lt.Stop fuel c = (lt, c) := by
  cases fuel with
  | zero => rfl
  | succ f => simp [LoadTester.Stop, h]

theorem Stop_add (a b : Nat) (lt : LoadTester) (c : StopCall) :
    lt.Stop (a + b) c = (lt.Stop a c).1.Stop b (lt.Stop a c).2 := by
  induction a generalizing lt c with
  | zero => simp [LoadTester.Stop]
  | succ a ih =>
    rw [Nat.succ_add]
    simp only [LoadTester.Stop]
    cases h : lt.StopStep c with
    | none => simp [Stop_stuck b lt c h]
    | some p =>
      obtain ⟨lt1, c1⟩ := p
      simp only
      exact ih lt1 c1

theorem consume_ok (k : Nat) (ch : Chan) (h : k ≤ ch.len) :
    Chan.consume k ch = some { ch with len := ch.len - k } := by
  induction k generalizing ch with
  | zero => simp [Chan.consume]
  | succ k ih =>
    have h1 : 0 < ch.len := by omega
    simp only [Chan.consume, Chan.recv, h1, if_true]
    rw [ih _ (by simp only; omega)]
    simp only [Option.some.injEq]
    congr 1
    omega

theorem consume_none (k : Nat) (ch : Chan) (h : ch.len < k) : Chan.consume k ch = none := by
  induction k generalizing ch with
  | zero => omega
  | succ k ih =>
    by_cases h1 : 0 < ch.len
    · simp only [Chan.consume, Chan.recv, h1, if_true]
      exact ih _ (by simp only; omega)
    · simp [Chan.consume, Chan.recv, h1]

/-! ## The first `Stop()` on a fresh engine -/

theorem Stop_fresh_sends (v : String → String → Bool) (url m ua : String) (tmo T W : Int)
    (lt : LoadTester) (hW : 1 ≤ W) (h : NewLoadTester v url m ua tmo T W = .ok lt)
    (k : Nat) (hk : k ≤ W.toNat) :
    lt.Stop k StopCall.new
      = ({ lt with stopCh := { cap := W.toNat, len := k } }, { i := k, returned := false }) := by
  obtain ⟨-, -, -, hc, -, hch⟩ := NewLoadTester_ok _ _ _ _ _ _ _ _ h
  rw [Stop_sends k lt StopCall.new rfl (by simp only [StopCall.new, hc]; omega)
    (by rw [hch]; simp only; omega)]
  simp [StopCall.new, hch]

theorem Stop_fresh_returns (v : String → String → Bool) (url m ua : String) (tmo T W : Int)
    (lt : LoadTester) (hW : 1 ≤ W) (h : NewLoadTester v url m ua tmo T W = .ok lt)
    (fuel : Nat) (hfuel : W.toNat + 1 ≤ fuel) :
    lt.Stop fuel StopCall.new
      = ({ lt with stopCh := { cap := W.toNat, len := W.toNat } },
         { i := W, returned := true }) := by
  obtain ⟨-, -, -, hc, -, hch⟩ := NewLoadTester_ok _ _ _ _ _ _ _ _ h
  obtain ⟨f, rfl⟩ : ∃ f, fuel = W.toNat + (1 + f) := ⟨fuel - W.toNat - 1, by omega⟩
  rw [Stop_add, Stop_fresh_sends v url m ua tmo T W lt hW h W.toNat (le_refl _)]
  simp only
  rw [Stop_add]
  have hnot : ¬ ((W.toNat : Int) < W) := by omega
  have e1 : ({ lt with stopCh := { cap := W.toNat, len := W.toNat } } : LoadTester).Stop 1
      { i := W.toNat, returned := false }
      = ({ lt with stopCh := { cap := W.toNat, len := W.toNat } },
         { i := W.toNat, returned := true }) := by
    simp [LoadTester.Stop, LoadTester.StopStep, hc, hnot]
  rw [e1]
  simp only
  rw [Stop_stuck f _ _ (by simp [LoadTester.StopStep])]
  have : ((W.toNat : Nat) : Int) = W := by omega
  rw [this]

/-! ## Workers that have returned -/

/-- A worker that returned without taking a token has sent its whole budget. -/
theorem Worker.sent_of_done (w : Worker) (hok : w.ok) (hd : w.pc = .done) (ht : w.taken = 0) :
    w.sent = w.n.toNat := by
  obtain ⟨h1, h2, h3, -, -, -, -, -, h9⟩ := hok
  have := h9 hd
  simp only [hd, PC.busy] at h3
  omega

/-! ## C1 -/

/-- C1, as stated, fails at `W = 2 ^ 31`: construction succeeds, and `Start`
panics in `wg.Add(lt.concurrency)` (negative `WaitGroup` counter) before any
worker is spawned, so no request is attempted. -/
theorem Start_panics_at_int32 :
    NewLoadTester (fun _ _ => true) "http://localhost/" "GET" "user-agent" 1000000000
        (2 ^ 31) (2 ^ 31) = .ok (exampleEngine (2 ^ 31) (2 ^ 31)) ∧
      (exampleEngine (2 ^ 31) (2 ^ 31)).Start [] = .error .negativeWaitGroupCounter := by
  refine ⟨rfl, ?_⟩
  have h : wgAdd 0 (exampleEngine (2 ^ 31) (2 ^ 31)).concurrency
      = .error .negativeWaitGroupCounter :=
    wgAdd_panics _ (by simp only [exampleEngine]; omega) (by simp only [exampleEngine]; omega)
  simp only [LoadTester.Start, h]

/-- C1 (amended): for `T >= 1` and `1 <= W < 2 ^ 31` (what the counter of the
`WaitGroup` holds), `Start` on a fresh engine runs exactly `W`
workers, each with budget `floor(T / W)`; when `Stop` is never called, under
every schedule at most `W * floor(T / W)` requests are attempted, exactly that
many once `Start` returns, the schedule is bounded and a worker that has not
returned can always act (so `Start` does return, and complete runs exist); this
number is `T` if and only if `W` divides `T`, and falls short of `T` by `T mod W`. -/
theorem Start_quota (v : String → String → Bool) (url m ua : String) (tmo T W : Int)
    (lt : LoadTester) (hT : 1 ≤ T) (hW : 1 ≤ W) (hW31 : W < 2 ^ 31)
    (h : NewLoadTester v url m ua tmo T W = .ok lt) :
    ∃ s0, lt.Start [] = .ok s0 ∧
      s0.workers = List.replicate W.toNat (Worker.new (T / W)) ∧
      (∀ es s, es.all Event.isWorker = true → s0.run es = some s →
        (s.attempted : Int) ≤ W * (T / W) ∧
        (s.StartReturned = true → (s.attempted : Int) = W * (T / W)) ∧
        es.length ≤ W.toNat * (3 * (T / W).toNat + 1) ∧
        (s.StartReturned = false → ∀ reply, ∃ j, (s.step (.worker j reply)).isSome = true)) ∧
      (∃ es s, es.all Event.isWorker = true ∧ s0.run es = some s ∧ s.StartReturned = true) ∧
      (W * (T / W) = T ↔ W ∣ T) ∧ T - W * (T / W) = T % W := by
  obtain ⟨-, -, hreq, hcon, hres, hch⟩ := NewLoadTester_ok _ _ _ _ _ _ _ _ h
  obtain ⟨N, s0, hN, hlt, -, hws, hdiv, hok0, hshape0, hfuel0, -, -, -, -, hmem, hcnt0⟩ :=
    Start_fresh lt [] (by omega) (by rw [hcon]; exact hW31)
  have hNeq : N = T / W := by
    have h1 := hdiv (by omega)
    rw [hreq, hcon, goDiv_pos T W (by omega)] at h1
    have h2 : T.tdiv W = N := by simpa using h1
    rw [← h2]
    exact Int.tdiv_eq_ediv (by omega) (by omega)
  have hNnn : 0 ≤ T / W := Int.ediv_nonneg (by omega) (by omega)
  subst hNeq
  rw [hcon] at hws hshape0 hfuel0
  have hcast : ((W.toNat * (T / W).toNat : Nat) : Int) = W * (T / W) := by
    push_cast
    rw [Int.toNat_of_nonneg (by omega : 0 ≤ W), Int.toNat_of_nonneg hNnn]
  refine ⟨s0, hN, hws, fun es s hes hrun => ?_, ?_, ?_, ?_⟩
  · have hquiet0 : s0.quiet :=
      ⟨by rw [hlt, hch], fun w hw => by rw [hmem w hw]; rfl⟩
    have hquiet := Sys.run_invariant Event.isWorker Sys.quiet Sys.quiet_step es s0 s hes hquiet0 hrun
    have hok := Sys.run_invariant_all Sys.allOk Sys.allOk_step es s0 s hok0 hrun
    have hcnt := Sys.run_invariant_all Sys.counted Sys.counted_step es s0 s hcnt0 hrun
    have hshape := Sys.run_invariant_all (Sys.shape (T / W) W.toNat)
      (Sys.shape_step (T / W) W.toNat) es s0 s hshape0 hrun
    have hfu := Sys.run_fuel es s0 s hrun
    have hcount : es.countP Event.isWorker = es.length := by
      rw [List.countP_eq_length]
      exact fun e he => List.all_eq_true.1 hes e he
    have hle : s.attempted ≤ W.toNat * (T / W).toNat := by
      have h1 : s.attempted ≤ (s.workers.map (fun _ => (T / W).toNat)).sum :=
        sum_map_le _ _ _ (fun w hw => by
          have := Worker.sent_le w (hok w hw)
          rw [hshape.2 w hw] at this
          exact this)
      rw [sum_map_const _ _ (T / W).toNat (fun _ _ => rfl), hshape.1] at h1
      exact h1
    refine ⟨?_, fun hret => ?_, by omega, fun hret reply => Sys.progress s hcnt hret reply⟩
    · rw [← hcast]
      exact_mod_cast hle
    · rw [Sys.StartReturned_iff s hcnt] at hret
      have h1 : s.attempted = s.workers.length * (T / W).toNat :=
        sum_map_const _ _ _ (fun w hw => by
          have := Worker.sent_of_done w (hok w hw) (hret w hw) (hquiet.2 w hw)
          rw [hshape.2 w hw] at this
          exact this)
      rw [hshape.1] at h1
      rw [← hcast, h1]
  · obtain ⟨es, s, h1, h2, h3⟩ := Sys.complete (.response 200) s0 hcnt0
    refine ⟨es, s, ?_, h2, h3⟩
    rw [List.all_eq_true]
    intro e he
    obtain ⟨j, rfl⟩ := h1 e he
    rfl
  · constructor
    · intro he
      exact ⟨T / W, he.symm⟩
    · intro hd
      exact Int.mul_ediv_cancel' hd
  · rw [Int.emod_def]

/-- C1 on the examples: `T = 100`, `W = 3` starts 3 workers and attempts 99
requests, one short of `T`; `T = 20`, `W = 5` attempts 20. -/
theorem Start_quota_witness :
    (∃ s0, (exampleEngine 100 3).Start [] = .ok s0 ∧ s0.workers.length = 3 ∧
      (∀ es s, es.all Event.isWorker = true → s0.run es = some s → s.StartReturned = true →
        (s.attempted : Int) = 99) ∧
      (100 : Int) - 3 * (100 / 3) = 1) ∧
    (∃ s0, (exampleEngine 20 5).Start [] = .ok s0 ∧ s0.workers.length = 5 ∧
      (∀ es s, es.all Event.isWorker = true → s0.run es = some s → s.StartReturned = true →
        (s.attempted : Int) = 20)) := by
  obtain ⟨s0, h1, h2, h3, -, -, -⟩ :=
    Start_quota (fun _ _ => true) "http://localhost/" "GET" "user-agent" 1000000000 100 3
      (exampleEngine 100 3) (by decide) (by decide) (by decide) rfl
  obtain ⟨t0, k1, k2, k3, -, -, -⟩ :=
    Start_quota (fun _ _ => true) "http://localhost/" "GET" "user-agent" 1000000000 20 5
      (exampleEngine 20 5) (by decide) (by decide) (by decide) rfl
  refine ⟨⟨s0, h1, by rw [h2]; rfl, fun es s a b c => ?_, by decide⟩,
    ⟨t0, k1, by rw [k2]; rfl, fun es s a b c => ?_⟩⟩
  · have := (h3 es s a b).2.1 c
    rw [this]
    decide
  · have := (k3 es s a b).2.1 c
    rw [this]
    decide

/-! ## C2 -/

/-- C2, as stated, fails when a code is recorded `2 ^ 64` times: one goroutine
making `2 ^ 64` calls with 200 from the empty histogram leaves the count 0. -/
theorem record_wraps :
    ∃ lt1, (exampleEngine 1 1).record [List.replicate (2 ^ 64) 200] (List.replicate (2 ^ 64) 0)
        = some (lt1, [[]]) ∧
      mapGet lt1.Result 200 = some 0 ∧ calls 200 [List.replicate (2 ^ 64) 200] = 2 ^ 64 ∧
      mapGet lt1.Result 200 ≠ some (calls 200 [List.replicate (2 ^ 64) 200]) := by
  obtain ⟨lt1, h1, h2⟩ := record_replicate 200 (2 ^ 64) (exampleEngine 1 1)
  have h3 := h2 0 (by simp [exampleEngine, mapGet, counter])
  have h4 : mapGet lt1.Result 200 = some 0 := by
    show mapGet lt1.result 200 = some 0
    rw [h3]
    simp [counter, uintMod]
  refine ⟨lt1, h1, h4, calls_replicate 200 (2 ^ 64), ?_⟩
  rw [h4, calls_replicate 200 (2 ^ 64)]
  simp

/-- C2 (amended): for every group of goroutines and every complete interleaving
of their `storeStatusCode` calls from the empty histogram, the final entry of
every code is determined by the number of calls made with it, whatever the
interleaving: absent for no call, otherwise that number modulo `2 ^ 64`, hence
exactly that number when it is below `2 ^ 64`. -/
theorem record_no_lost_update (lt : LoadTester) (gs : List (List Int)) (sched : List Nat)
    (lt1 : LoadTester) (gs1 : List (List Int)) (h0 : lt.result = [])
    (hrun : lt.record gs sched = some (lt1, gs1)) (hall : ∀ g ∈ gs1, g = []) (c : Int) :
    mapGet lt1.Result c = counter (calls c gs) ∧
      (calls c gs = 0 → mapGet lt1.Result c = none) ∧
      (0 < calls c gs → calls c gs < uintMod → mapGet lt1.Result c = some (calls c gs)) := by
  obtain ⟨a1, h1, h2⟩ := record_counter sched lt gs lt1 gs1 hrun c 0
    (by simp [h0, mapGet, counter])
  rw [calls_of_all_nil c gs1 hall] at h2
  have e : a1 = calls c gs := by omega
  subst e
  refine ⟨h1, fun hz => ?_, fun hp hlt => ?_⟩
  · show mapGet lt1.result c = none
    rw [h1]
    simp [counter, hz]
  · show mapGet lt1.result c = some (calls c gs)
    rw [h1]
    have : calls c gs ≠ 0 := by omega
    simp [counter, this, Nat.mod_eq_of_lt hlt]

/-- C2 on an example: two goroutines recording 200 twice each, interleaved as
0, 1, 1, 0, leave the count of 200 at 2 * 2. -/
theorem record_no_lost_update_witness :
    ∃ lt1, (exampleEngine 20 1).record [[200, 200], [200, 200]] [0, 1, 1, 0] = some (lt1, [[], []]) ∧
      mapGet lt1.Result 200 = some (2 * 2) := by
  have hrun : ∃ lt1, (exampleEngine 20 1).record [[200, 200], [200, 200]] [0, 1, 1, 0]
      = some (lt1, [[], []]) := ⟨_, rfl⟩
  obtain ⟨lt1, h⟩ := hrun
  refine ⟨lt1, h, ?_⟩
  exact (record_no_lost_update (exampleEngine 20 1) [[200, 200], [200, 200]] [0, 1, 1, 0] lt1
    [[], []] rfl h (by decide) 200).2.2 (by decide) (by decide)

/-! ## C3 -/

/-- C3, as stated, fails at the largest counter: recording 200 in a histogram
that holds `2 ^ 64 - 1` for 200 leaves 0 there, not `2 ^ 64`. -/
theorem storeStatusCode_wraps_at_max :
    mapGet saturatedEngine.result 200 = some (2 ^ 64 - 1) ∧
      mapGet (saturatedEngine.storeStatusCode 200).result 200 = some 0 ∧
      mapGet (saturatedEngine.storeStatusCode 200).result 200 ≠ some (2 ^ 64 - 1 + 1) := by
  have h : mapGet (saturatedEngine.storeStatusCode 200).result 200 = some 0 := by
    rw [store_get_self]
    simp [saturatedEngine, mapIndex, mapGet, uintMod]
  refine ⟨by simp [saturatedEngine, mapGet], h, ?_⟩
  rw [h]
  simp

/-- C3 (amended): after `storeStatusCode(c)` the count of `c` is 1 if `c` was
absent, the old count plus one taken as a `uint` (modulo `2 ^ 64`) if it was
present, which is the old count plus one below the largest `uint`; every other
code has the entry it had (none added, removed or changed). -/
theorem storeStatusCode_frame (lt : LoadTester) (c : Int) :
    (mapGet lt.result c = none → mapGet (lt.storeStatusCode c).result c = some 1) ∧
      (∀ v, mapGet lt.result c = some v →
        mapGet (lt.storeStatusCode c).result c = some ((v + 1) % uintMod)) ∧
      (∀ v, mapGet lt.result c = some v → v + 1 < uintMod →
        mapGet (lt.storeStatusCode c).result c = some (v + 1)) ∧
      (∀ k, k ≠ c → mapGet (lt.storeStatusCode c).result k = mapGet lt.result k) ∧
      (lt.storeStatusCode c).stopCh = lt.stopCh := by
  refine ⟨fun h => ?_, fun v h => ?_, fun v h hv => ?_, fun k hk => store_get_ne lt c k hk,
    (store_other_fields lt c).1⟩
  · rw [store_get_self]
    simp [mapIndex, h, uintMod]
  · rw [store_get_self]
    simp [mapIndex, h]
  · rw [store_get_self]
    simp [mapIndex, h, Nat.mod_eq_of_lt hv]

/-- C3 on examples: a present code goes from 5 to 6, an absent one appears with 1,
and the other entry is untouched. -/
theorem storeStatusCode_frame_witness :
    mapGet ({ exampleEngine 20 5 with result := [(200, 5), (404, 2)] }.storeStatusCode 200).result
        200 = some 6 ∧
      mapGet ({ exampleEngine 20 5 with result := [(200, 5), (404, 2)] }.storeStatusCode 500).result
        500 = some 1 ∧
      mapGet ({ exampleEngine 20 5 with result := [(200, 5), (404, 2)] }.storeStatusCode 200).result
        404 = some 2 :=
  ⟨(storeStatusCode_frame { exampleEngine 20 5 with result := [(200, 5), (404, 2)] } 200).2.2.1 5
      (by decide) (by decide),
    (storeStatusCode_frame { exampleEngine 20 5 with result := [(200, 5), (404, 2)] } 500).1
      (by decide),
    (storeStatusCode_frame { exampleEngine 20 5 with result := [(200, 5), (404, 2)] } 200).2.2.2.1
      404 (by decide)⟩

/-! ## C4 -/

/-- C4, as stated, fails at `W = 2 ^ 32` (with `T = 2 ^ 32`): the 32-bit counter
of the `WaitGroup` is 0 after `wg.Add(lt.concurrency)`, so `wg.Wait()` lets
`Start` return while requests are under way; with one request answered and not
yet recorded, `Start` has returned, the sum of the counts is 0, and one attempt
has returned a status code, without any transport error. -/
theorem Start_returns_early :
    NewLoadTester (fun _ _ => true) "http://localhost/" "GET" "user-agent" 1000000000
        (2 ^ 32) (2 ^ 32) = .ok (exampleEngine (2 ^ 32) (2 ^ 32)) ∧
      ∃ s0 s, (exampleEngine (2 ^ 32) (2 ^ 32)).Start [] = .ok s0 ∧
        s0.run [.worker 0 (.response 200), .worker 0 (.response 200)] = some s ∧
        s.StartReturned = true ∧ total s.lt.Result = 0 ∧ s.answered = 1 ∧ s.attempted = 1 ∧
        s.diagnostics = 0 := by
  refine ⟨rfl, ?_⟩
  obtain ⟨k, hS⟩ := Start_wraps (exampleEngine (2 ^ 32) (2 ^ 32)) rfl rfl
  obtain ⟨s, h1, h2⟩ := early_return (exampleEngine (2 ^ 32) (2 ^ 32)) k rfl rfl
  exact ⟨_, s, hS, h1, h2⟩

/-- C4 (amended): for every run of `Start` on a fresh engine with `1 <= T` (an
`int`) and `1 <= W < 2 ^ 32` (a run exists when `W < 2 ^ 31`; from there up to
`2 ^ 32` `Start` panics in `wg.Add`), whatever the transport answers and
whenever and however often `Stop` is called, at every moment the sum of the
counts of `Result()` is at most the number of attempts that returned a status
code, which is at most the number of requests attempted; once `Start` has
returned the sum equals the number of attempts that returned a status code,
the sum and the diagnostics together account for every request attempted, and
so the sum equals the number of requests attempted when no request got a
transport error. -/
theorem Result_sum (v : String → String → Bool) (url m ua : String) (tmo T W : Int)
    (lt : LoadTester) (hT : 1 ≤ T) (hmax : T ≤ maxInt) (hW : 1 ≤ W) (hW32 : W < 2 ^ 32)
    (h : NewLoadTester v url m ua tmo T W = .ok lt) (stops : List StopCall) :
    (W < 2 ^ 31 → ∃ s0, lt.Start stops = .ok s0) ∧
      ∀ s0, lt.Start stops = .ok s0 →
        ∀ es s, s0.run es = some s →
          total s.lt.Result ≤ s.answered ∧ s.answered ≤ s.attempted ∧
          (s.StartReturned = true → total s.lt.Result = s.answered) ∧
          (s.StartReturned = true → total s.lt.Result + s.diagnostics = s.attempted) ∧
          (s.StartReturned = true → s.diagnostics = 0 → total s.lt.Result = s.attempted) ∧
          (keys s.lt.Result).Nodup := by
  obtain ⟨-, -, hreq, hcon, hres, hch⟩ := NewLoadTester_ok _ _ _ _ _ _ _ _ h
  refine ⟨fun h31 => ?_, fun s1 hS es s hrun => ?_⟩
  · obtain ⟨N, s0, hN, -⟩ := Start_fresh lt stops (by omega) (by rw [hcon]; exact h31)
    exact ⟨s0, hN⟩
  have h31 : lt.concurrency < 2 ^ 31 :=
    Start_ok_bound lt stops s1 hS (by rw [hcon]; exact hW32) (by omega)
  obtain ⟨N, s0, hN, hlt, -, hws, hdiv, hok0, -, -, -, -, hst0, hbud0, hmem, hcnt0⟩ :=
    Start_fresh lt stops (by omega) h31
  have hs01 : s1 = s0 := by
    rw [hS] at hN
    exact Except.ok.inj hN
  subst hs01
  have hNeq : N = T / W := by
    have h1 := hdiv (by omega)
    rw [hreq, hcon, goDiv_pos T W (by omega)] at h1
    have h2 : T.tdiv W = N := by simpa using h1
    rw [← h2]
    exact Int.tdiv_eq_ediv (by omega) (by omega)
  have hNnn : 0 ≤ T / W := Int.ediv_nonneg (by omega) (by omega)
  subst hNeq
  rw [hcon] at hbud0
  have hcast : ((W.toNat * (T / W).toNat : Nat) : Int) = W * (T / W) := by
    push_cast
    rw [Int.toNat_of_nonneg (by omega : 0 ≤ W), Int.toNat_of_nonneg hNnn]
  have hquota : W * (T / W) ≤ T := Int.mul_ediv_self_le (by omega)
  have hgood0 : s1.good := by
    refine ⟨hok0, by rw [hlt, hres, hst0]; rfl, ?_, by rw [hlt, hres]; simp [keys]⟩
    rw [hbud0]
    have : ((W.toNat * (T / W).toNat : Nat) : Int) < ((uintMod : Nat) : Int) := by
      rw [hcast]
      simp only [maxInt] at hmax
      simp only [uintMod]
      push_cast
      omega
    exact_mod_cast this
  obtain ⟨hok, htot, -, hnd⟩ := Sys.run_invariant_all Sys.good Sys.good_step es s1 s hgood0 hrun
  have hcnt := Sys.run_invariant_all Sys.counted Sys.counted_step es s1 s hcnt0 hrun
  have h1 : s.stored ≤ s.answered :=
    sum_map_le _ _ _ (fun w hw => (Worker.stored_le w (hok w hw)).1)
  have h2 : s.answered ≤ s.attempted :=
    sum_map_le _ _ _ (fun w hw => (Worker.stored_le w (hok w hw)).2)
  have hret1 : s.StartReturned = true → s.stored = s.answered := by
    intro hret
    rw [Sys.StartReturned_iff s hcnt] at hret
    exact sum_map_eq _ _ _ (fun w hw => by
      have := (hok w hw).stored_eq
      simp only [hret w hw, PC.storing] at this
      omega)
  have hret2 : s.StartReturned = true → s.answered + s.diagnostics = s.attempted := by
    intro hret
    rw [Sys.StartReturned_iff s hcnt] at hret
    have e : ∀ w ∈ s.workers, w.answered + w.failed = w.sent := fun w hw => by
      have h5 := (hok w hw).outcome
      simp only [hret w hw, PC.waiting] at h5
      omega
    have e1 := sum_map_eq (fun w => w.answered + w.failed) Worker.sent s.workers e
    rw [sum_map_add] at e1
    exact e1
  refine ⟨?_, h2, fun hret => ?_, fun hret => ?_, fun hret hz => ?_, hnd⟩
  · show total s.lt.result ≤ s.answered
    omega
  · show total s.lt.result = s.answered
    have := hret1 hret
    omega
  · show total s.lt.result + s.diagnostics = s.attempted
    have h3 := hret1 hret
    have h4 := hret2 hret
    omega
  · show total s.lt.result = s.attempted
    have h3 := hret1 hret
    have h4 := hret2 hret
    omega

/-- C4 on an example: `T = 4`, `W = 2`; `Start` does not panic, and the bounds
and equalities hold along every schedule. -/
theorem Result_sum_witness :
    ((2 : Int) < 2 ^ 31 → ∃ s0, (exampleEngine 4 2).Start [] = .ok s0) ∧
      ∀ s0, (exampleEngine 4 2).Start [] = .ok s0 →
        ∀ es s, s0.run es = some s →
          total s.lt.Result ≤ s.answered ∧ s.answered ≤ s.attempted ∧
          (s.StartReturned = true → total s.lt.Result = s.answered) ∧
          (s.StartReturned = true → total s.lt.Result + s.diagnostics = s.attempted) ∧
          (s.StartReturned = true → s.diagnostics = 0 → total s.lt.Result = s.attempted) ∧
          (keys s.lt.Result).Nodup :=
  Result_sum (fun _ _ => true) "http://localhost/" "GET" "user-agent" 1000000000 4 2
    (exampleEngine 4 2) (by decide) (by decide) (by decide) (by decide) rfl []

/-! ## C5 -/

/-- C5: when every attempt returns a transport error and no stop token ever
arrives, `runWorker(n)` (with `n` a non-negative `int`) returns after exactly
`n` attempts and `n` diagnostics, with no call of `storeStatusCode` and the
histogram untouched; and on a freshly constructed engine, whenever `Start` does
not panic and `Stop` is never called, under every schedule `Result()` is the
empty histogram (so it is after `Start` completes), every attempt that is not
under way has its diagnostic, and the schedule is bounded; for `W < 2 ^ 31`
`Start` does not panic, a worker that has not returned can always act, and
once `Start` has returned there is one diagnostic per attempt. -/
theorem runWorker_no_retry (chanAt : Int → Chan) (replyAt : Int → Reply) (lt0 : LoadTester)
    (n : Nat) (v : String → String → Bool) (url m ua : String) (tmo T W : Int)
    (lt : LoadTester) :
    ((∀ j : Int, 0 ≤ j → j < n → (chanAt j).len = 0) →
      (∀ j : Int, 0 ≤ j → j < n → replyAt j = .transportError) →
      ∀ fuel, 3 * n + 1 ≤ fuel →
        ∃ lt1 w1, LoadTester.runWorker chanAt replyAt fuel lt0 (Worker.new n) = (lt1, w1) ∧
          w1.pc = .done ∧ w1.sent = n ∧ w1.failed = n ∧ w1.stored = 0 ∧
          lt1.Result = lt0.Result) ∧
    (NewLoadTester v url m ua tmo T W = .ok lt →
      (∀ s0, lt.Start [] = .ok s0 →
        ∃ bound, ∀ es s, es.all Event.failing = true → s0.run es = some s →
          s.lt.Result = [] ∧ s.diagnostics + s.inflight = s.attempted ∧ es.length ≤ bound) ∧
      (W < 2 ^ 31 →
        ∃ s0, lt.Start [] = .ok s0 ∧
          ∀ es s, es.all Event.failing = true → s0.run es = some s →
            (s.StartReturned = true → s.diagnostics = s.attempted) ∧
            (s.StartReturned = false →
              ∃ j, (s.step (.worker j .transportError)).isSome = true))) := by
  refine ⟨fun hno herr fuel hfuel => ?_, fun h => ⟨fun s0 hS => ?_, fun h31 => ?_⟩⟩
  · obtain ⟨lt1, w1, h1, h2, h3, -, -, h5⟩ :=
      runWorker_exhausted chanAt replyAt n lt0 hno fuel hfuel
    obtain ⟨h6, h7, h8⟩ := h5 herr
    exact ⟨lt1, w1, h1, h2, h3, h6, h7, h8⟩
  · obtain ⟨-, hW, -, hc, hres, -⟩ := NewLoadTester_ok _ _ _ _ _ _ _ _ h
    obtain ⟨N, hlt, -, hws, -, -, -⟩ := Start_inv lt [] s0 hS
    obtain ⟨hok0, -, -, -, -, -, -, hmem⟩ := started_invariants s0 N lt.concurrency.toNat hws
    refine ⟨s0.fuel, fun es s hes hrun => ?_⟩
    have hsil0 : s0.silent :=
      ⟨hok0, by rw [hlt]; exact hres, fun w hw => by rw [hmem w hw]; rfl⟩
    obtain ⟨hok, hr, hans⟩ := Sys.run_invariant Event.failing Sys.silent Sys.silent_step es _ s
      hes hsil0 hrun
    have hfu := Sys.run_fuel es _ s hrun
    have hcount : es.countP Event.isWorker = es.length := by
      rw [List.countP_eq_length]
      intro e he
      have := List.all_eq_true.1 hes e he
      cases e with
      | worker j r => rfl
      | callStop => simp [Event.failing] at this
      | stop k => simp [Event.failing] at this
    refine ⟨hr, ?_, by omega⟩
    have e : ∀ w ∈ s.workers, w.failed + w.pc.waiting = w.sent := fun w hw => by
      have h1 := (hok w hw).outcome
      have h2 := hans w hw
      omega
    have e1 := sum_map_eq (fun w => w.failed + w.pc.waiting) Worker.sent s.workers e
    rw [sum_map_add] at e1
    exact e1
  · obtain ⟨-, hW, -, hc, hres, -⟩ := NewLoadTester_ok _ _ _ _ _ _ _ _ h
    obtain ⟨N, s0, hN, hlt, -, -, -, hok0, -, -, -, -, -, -, hmem, hcnt0⟩ :=
      Start_fresh lt [] (by omega) (by rw [hc]; exact h31)
    refine ⟨s0, hN, fun es s hes hrun => ?_⟩
    have hsil0 : s0.silent :=
      ⟨hok0, by rw [hlt]; exact hres, fun w hw => by rw [hmem w hw]; rfl⟩
    obtain ⟨hok, hr, hans⟩ := Sys.run_invariant Event.failing Sys.silent Sys.silent_step es _ s
      hes hsil0 hrun
    have hcnt := Sys.run_invariant_all Sys.counted Sys.counted_step es s0 s hcnt0 hrun
    refine ⟨fun hret => ?_, fun hret => Sys.progress s hcnt hret _⟩
    rw [Sys.StartReturned_iff s hcnt] at hret
    exact sum_map_eq _ _ _ (fun w hw => by
      have h1 := (hok w hw).outcome
      have h2 := hans w hw
      simp only [hret w hw, PC.waiting] at h1
      omega)

/-- C5 on an example: `runWorker(3)` against a transport that always fails. -/
theorem runWorker_no_retry_witness :
    ∃ lt1 w1, LoadTester.runWorker (fun _ => { cap := 1, len := 0 }) (fun _ => .transportError) 10
        (exampleEngine 3 1) (Worker.new ((3 : Nat) : Int)) = (lt1, w1) ∧
      w1.pc = .done ∧ w1.sent = 3 ∧ w1.failed = 3 ∧ w1.stored = 0 ∧
      lt1.Result = (exampleEngine 3 1).Result :=
  (runWorker_no_retry (fun _ => { cap := 1, len := 0 }) (fun _ => .transportError)
    (exampleEngine 3 1) 3 (fun _ _ => true) "http://localhost/" "GET" "user-agent" 1000000000 3 1
    (exampleEngine 3 1)).1 (fun _ _ _ => rfl) (fun _ _ _ => rfl) 10 (by decide)

/-! ## C6 -/

/-- C6, as stated, fails at `W = 2 ^ 31`: on the fresh engine `Stop()` returns
(all `2 ^ 31` tokens fit the channel), and `Start()` called afterwards panics in
`wg.Add(lt.concurrency)`, so no worker runs and `Start` does not return. -/
theorem Stop_then_Start_panics :
    ∃ lt1 c1, (exampleEngine 1 (2 ^ 31)).Stop ((2 ^ 31 : Int).toNat + 1) StopCall.new = (lt1, c1) ∧
      c1.returned = true ∧ lt1.Start [c1] = .error .negativeWaitGroupCounter := by
  have hnew : NewLoadTester (fun _ _ => true) "http://localhost/" "GET" "user-agent" 1000000000
      1 (2 ^ 31) = .ok (exampleEngine 1 (2 ^ 31)) := rfl
  refine ⟨_, _, Stop_fresh_returns (fun _ _ => true) "http://localhost/" "GET" "user-agent"
    1000000000 1 (2 ^ 31) (exampleEngine 1 (2 ^ 31)) (by omega) hnew _ (le_refl _), rfl, ?_⟩
  have h : wgAdd 0 (exampleEngine 1 (2 ^ 31)).concurrency = .error .negativeWaitGroupCounter :=
    wgAdd_panics _ (by simp only [exampleEngine]; omega) (by simp only [exampleEngine]; omega)
  simp only [LoadTester.Start, h]

/-- C6 (amended): on a fresh engine with `1 <= W < 2 ^ 31` (what the counter of
the `WaitGroup` holds), when `Stop()` has returned before
`Start()` is called, then under every schedule of the `W` workers every worker
receives at most one token and sends no request, zero requests are attempted,
`Result()` is empty, every action is the return of one more worker, so after
`W` actions all workers have returned and `Start` returns; a worker that has
not returned can always act. -/
theorem Stop_before_Start (v : String → String → Bool) (url m ua : String) (tmo T W : Int)
    (lt : LoadTester) (hW : 1 ≤ W) (hW31 : W < 2 ^ 31)
    (h : NewLoadTester v url m ua tmo T W = .ok lt) :
    ∃ lt1 c1 s0, lt.Stop (W.toNat + 1) StopCall.new = (lt1, c1) ∧ c1.returned = true ∧
      lt1.Start [c1] = .ok s0 ∧ s0.workers.length = W.toNat ∧
      ∀ es s, es.all Event.isWorker = true → s0.run es = some s →
        (∀ w ∈ s.workers, w.taken ≤ 1 ∧ w.sent = 0) ∧ s.attempted = 0 ∧ s.lt.Result = [] ∧
        s.live + es.length = W.toNat ∧ (es.length = W.toNat → s.StartReturned = true) ∧
        (s.StartReturned = false → ∀ reply, ∃ j, (s.step (.worker j reply)).isSome = true) := by
  obtain ⟨-, -, hreq, hcon, hres, hch⟩ := NewLoadTester_ok _ _ _ _ _ _ _ _ h
  have hstop := Stop_fresh_returns v url m ua tmo T W lt hW h (W.toNat + 1) (le_refl _)
  obtain ⟨N, s0, hN, hlt, -, hws, -, hok0, hshape0, -, hlive0, htk0, -, -, hmem, hcnt0⟩ :=
    Start_fresh ({ lt with stopCh := { cap := W.toNat, len := W.toNat } } : LoadTester)
      [{ i := W, returned := true }] (by simp only; omega) (by simp only [hcon]; exact hW31)
  simp only [hcon] at hws hshape0 hlive0
  refine ⟨_, _, s0, hstop, rfl, hN, hshape0.1, fun es s hes hrun => ?_⟩
  have hhalt0 : s0.halted := by
    refine ⟨hok0, by rw [hlt]; exact hres, ?_, fun w hw => ?_⟩
    · rw [hlt, htk0, hshape0.1]
      rfl
    · rw [hmem w hw]
      exact ⟨rfl, Or.inl rfl⟩
  obtain ⟨⟨hok, hr, -, hall⟩, hlive⟩ := Sys.run_halted es s0 s hes hhalt0 hrun
  have hcnt := Sys.run_invariant_all Sys.counted Sys.counted_step es s0 s hcnt0 hrun
  rw [hlive0] at hlive
  refine ⟨fun w hw => ⟨(hok w hw).taken_le, (hall w hw).1⟩, ?_, hr, hlive,
    fun hlen => Sys.returned_of_live s hcnt (by omega),
    fun hr reply => Sys.progress s hcnt hr reply⟩
  unfold Sys.attempted
  rw [sum_map_const _ _ 0 (fun w hw => (hall w hw).1)]
  omega

/-- C6 on an example: `W = 2`, `T = 4`, `Stop()` first; after both workers have
acted, `Start` has returned with nothing attempted. -/
theorem Stop_before_Start_witness :
    ∃ lt1 c1 s0, (exampleEngine 4 2).Stop ((2 : Int).toNat + 1) StopCall.new = (lt1, c1) ∧
      c1.returned = true ∧ lt1.Start [c1] = .ok s0 ∧ s0.workers.length = (2 : Int).toNat ∧
      ∀ es s, es.all Event.isWorker = true → s0.run es = some s →
        (∀ w ∈ s.workers, w.taken ≤ 1 ∧ w.sent = 0) ∧ s.attempted = 0 ∧ s.lt.Result = [] ∧
        s.live + es.length = (2 : Int).toNat ∧
        (es.length = (2 : Int).toNat → s.StartReturned = true) ∧
        (s.StartReturned = false → ∀ reply, ∃ j, (s.step (.worker j reply)).isSome = true) :=
  Stop_before_Start (fun _ _ => true) "http://localhost/" "GET" "user-agent" 1000000000 4 2
    (exampleEngine 4 2) (by decide) (by decide) rfl

/-! ## C7 -/

/-- C7: for `W >= 1` the stop channel of a freshly constructed engine has
capacity exactly `W` and holds no token; the first `Stop()`, with nobody
receiving, performs `W` sends none of which finds the channel full, then
returns, leaving `W` tokens; `W` receives in a row all succeed and one more
finds the channel empty. -/
theorem Stop_enqueues_all (v : String → String → Bool) (url m ua : String) (tmo T W : Int)
    (lt : LoadTester) (hW : 1 ≤ W) (h : NewLoadTester v url m ua tmo T W = .ok lt) :
    lt.stopCh = { cap := W.toNat, len := 0 } ∧
      (∀ k : Nat, k ≤ W.toNat →
        lt.Stop k StopCall.new
          = ({ lt with stopCh := { cap := W.toNat, len := k } }, { i := k, returned := false }) ∧
        ({ lt with stopCh := { cap := W.toNat, len := k } } : LoadTester).StopBlocked
          { i := k, returned := false } = false) ∧
      (∀ fuel, W.toNat + 1 ≤ fuel →
        lt.Stop fuel StopCall.new
          = ({ lt with stopCh := { cap := W.toNat, len := W.toNat } },
             { i := W, returned := true })) ∧
      (∀ k : Nat, k ≤ W.toNat →
        Chan.consume k { cap := W.toNat, len := W.toNat }
          = some { cap := W.toNat, len := W.toNat - k }) ∧
      Chan.consume (W.toNat + 1) { cap := W.toNat, len := W.toNat } = none := by
  obtain ⟨-, -, -, hc, -, hch⟩ := NewLoadTester_ok _ _ _ _ _ _ _ _ h
  refine ⟨hch, fun k hk => ⟨Stop_fresh_sends v url m ua tmo T W lt hW h k hk, ?_⟩,
    fun fuel hfuel => Stop_fresh_returns v url m ua tmo T W lt hW h fuel hfuel,
    fun k hk => consume_ok k _ hk, consume_none _ _ (by simp only; omega)⟩
  by_cases hk1 : (k : Int) < W
  · have : k < W.toNat := by omega
    simp [LoadTester.StopBlocked, Chan.send, hc, hk1, this]
  · simp [LoadTester.StopBlocked, hc, hk1]

/-- C7 on the test: with `W = 5`, `Stop()` returns with five tokens queued and
five receives succeed. -/
theorem Stop_enqueues_all_witness :
    (exampleEngine 20 5).Stop 6 StopCall.new
        = ({ exampleEngine 20 5 with stopCh := { cap := (5 : Int).toNat, len := (5 : Int).toNat } },
           { i := 5, returned := true }) ∧
      Chan.consume 5 { cap := (5 : Int).toNat, len := (5 : Int).toNat }
        = some { cap := (5 : Int).toNat, len := (5 : Int).toNat - 5 } :=
  ⟨(Stop_enqueues_all (fun _ _ => true) "http://localhost/" "GET" "user-agent" 1000000000 20 5
      (exampleEngine 20 5) (by decide) rfl).2.2.1 6 (by decide),
    (Stop_enqueues_all (fun _ _ => true) "http://localhost/" "GET" "user-agent" 1000000000 20 5
      (exampleEngine 20 5) (by decide) rfl).2.2.2.1 5 (by decide)⟩

/-! ## C8 -/

/-- C8: on an engine with `W >= 1`, once a first `Stop()` has returned and
`c < W` of its tokens have been received, a second `Stop()` left to itself
never returns: however long it runs it has enqueued at most `c` tokens, and
after `c` sends it waits on the channel, which is at capacity `W` (with
`c = 0` it cannot send at all). -/
theorem Stop_twice_blocks (v : String → String → Bool) (url m ua : String) (tmo T W : Int)
    (lt : LoadTester) (hW : 1 ≤ W) (h : NewLoadTester v url m ua tmo T W = .ok lt)
    (c : Nat) (hc : c < W.toNat) :
    ∃ lt1 c1 ch, lt.Stop (W.toNat + 1) StopCall.new = (lt1, c1) ∧ c1.returned = true ∧
      Chan.consume c lt1.stopCh = some ch ∧ ch = { cap := W.toNat, len := W.toNat - c } ∧
      ∀ fuel, ∃ lt2 c2, ({ lt1 with stopCh := ch } : LoadTester).Stop fuel StopCall.new = (lt2, c2) ∧
        c2.returned = false ∧ c2.i = min fuel c ∧ lt2.stopCh.cap = W.toNat ∧
        lt2.stopCh.len = W.toNat - c + min fuel c ∧
        (c ≤ fuel → lt2.stopCh.len = W.toNat ∧ lt2.StopBlocked c2 = true) := by
  obtain ⟨-, -, -, hcon, -, hch⟩ := NewLoadTester_ok _ _ _ _ _ _ _ _ h
  refine ⟨_, _, _, Stop_fresh_returns v url m ua tmo T W lt hW h (W.toNat + 1) (le_refl _), rfl,
    consume_ok c _ (by simp only; omega), rfl, fun fuel => ?_⟩
  have hsend : ∀ k : Nat, k ≤ c →
      ({ lt with stopCh := { cap := W.toNat, len := W.toNat - c } } : LoadTester).Stop k
        StopCall.new
      = ({ lt with stopCh := { cap := W.toNat, len := W.toNat - c + k } },
         { i := k, returned := false }) := by
    intro k hk
    rw [Stop_sends k _ StopCall.new rfl (by simp only [StopCall.new, hcon]; omega)
      (by simp only; omega)]
    simp [StopCall.new]
  have hblock : ({ lt with stopCh := { cap := W.toNat, len := W.toNat - c + c } } : LoadTester).StopStep
      { i := c, returned := false } = none := by
    have h1 : (c : Int) < W := by omega
    have h2 : ¬ (W.toNat - c + c < W.toNat) := by omega
    simp [LoadTester.StopStep, Chan.send, hcon, h1, h2]
  by_cases hf : fuel ≤ c
  · refine ⟨_, _, hsend fuel hf, ?_, ?_, ?_, ?_, fun hcf => ?_⟩
    · rfl
    · simp [Nat.min_eq_left hf]
    · rfl
    · simp [Nat.min_eq_left hf]
    · have e : fuel = c := by omega
      subst e
      have h1 : (fuel : Int) < W := by omega
      have h2 : ¬ (W.toNat - fuel + fuel < W.toNat) := by omega
      refine ⟨by simp only; omega, ?_⟩
      simp [LoadTester.StopBlocked, Chan.send, hcon, h1, h2]
  · obtain ⟨f, rfl⟩ : ∃ f, fuel = c + f := ⟨fuel - c, by omega⟩
    have hmin : min (c + f) c = c := by omega
    have hrun : ({ lt with stopCh := { cap := W.toNat, len := W.toNat - c } } : LoadTester).Stop
        (c + f) StopCall.new
        = ({ lt with stopCh := { cap := W.toNat, len := W.toNat - c + c } },
           { i := c, returned := false }) := by
      rw [Stop_add, hsend c (le_refl _)]
      simp only
      rw [Stop_stuck f _ _ hblock]
    refine ⟨_, _, hrun, ?_, ?_, ?_, ?_, fun _ => ⟨?_, ?_⟩⟩
    · rfl
    · simp [hmin]
    · rfl
    · simp [hmin]
    · simp only; omega
    · have h1 : (c : Int) < W := by omega
      have h2 : ¬ (W.toNat - c + c < W.toNat) := by omega
      simp [LoadTester.StopBlocked, Chan.send, hcon, h1, h2]

/-- C8 on an example: `W = 5`, two tokens received, the second `Stop()` sends
two tokens and then waits on the full channel. -/
theorem Stop_twice_blocks_witness :
    ∃ lt1 c1 ch, (exampleEngine 20 5).Stop ((5 : Int).toNat + 1) StopCall.new = (lt1, c1) ∧
      c1.returned = true ∧
      Chan.consume 2 lt1.stopCh = some ch ∧
      ch = { cap := (5 : Int).toNat, len := (5 : Int).toNat - 2 } ∧
      ∀ fuel, ∃ lt2 c2, ({ lt1 with stopCh := ch } : LoadTester).Stop fuel StopCall.new = (lt2, c2) ∧
        c2.returned = false ∧ c2.i = min fuel 2 ∧ lt2.stopCh.cap = (5 : Int).toNat ∧
        lt2.stopCh.len = (5 : Int).toNat - 2 + min fuel 2 ∧
        (2 ≤ fuel → lt2.stopCh.len = (5 : Int).toNat ∧ lt2.StopBlocked c2 = true) :=
  Stop_twice_blocks (fun _ _ => true) "http://localhost/" "GET" "user-agent" 1000000000 20 5
    (exampleEngine 20 5) (by decide) rfl 2 (by decide)

/-! ## C9 -/

/-- C9: for every budget `n` (a number of iterations, so a non-negative `int`)
and every `k < n`, a worker that finds no stop
token at the top of iterations `0 .. k-1` and finds one at the top of iteration
`k` returns having attempted exactly `k` requests and received exactly one
token (taken from the channel), without starting iteration `k`; a worker that
never finds a token returns having attempted exactly `n` requests and received
no token. -/
theorem runWorker_checkpoint (chanAt : Int → Chan) (replyAt : Int → Reply) (lt : LoadTester)
    (n : Nat) :
    (∀ k : Nat, k < n → (∀ j : Int, 0 ≤ j → j < k → (chanAt j).len = 0) →
      0 < (chanAt k).len → ∀ fuel, 3 * k + 1 ≤ fuel →
        ∃ lt1 w1, LoadTester.runWorker chanAt replyAt fuel lt (Worker.new n) = (lt1, w1) ∧
          w1.pc = .done ∧ w1.sent = k ∧ w1.taken = 1 ∧ w1.i = k ∧
          lt1.stopCh.len + 1 = (chanAt k).len) ∧
    ((∀ j : Int, 0 ≤ j → j < n → (chanAt j).len = 0) → ∀ fuel, 3 * n + 1 ≤ fuel →
        ∃ lt1 w1, LoadTester.runWorker chanAt replyAt fuel lt (Worker.new n) = (lt1, w1) ∧
          w1.pc = .done ∧ w1.sent = n ∧ w1.taken = 0) := by
  refine ⟨fun k hk hno hyes fuel hfuel =>
    runWorker_stopped chanAt replyAt n k lt hk hno hyes fuel hfuel, fun hno fuel hfuel => ?_⟩
  obtain ⟨lt1, w1, h1, h2, h3, h4, -, -⟩ := runWorker_exhausted chanAt replyAt n lt hno fuel hfuel
  exact ⟨lt1, w1, h1, h2, h3, h4⟩

/-- C9 on the test: `runWorker(20)` with a token arriving after two completed
iterations sends 2 requests. -/
theorem runWorker_checkpoint_witness :
    ∃ lt1 w1, LoadTester.runWorker (fun j => { cap := 1, len := if j = 2 then 1 else 0 })
        (fun _ => .response 200) 7 (exampleEngine 20 1) (Worker.new ((20 : Nat) : Int))
          = (lt1, w1) ∧
      w1.pc = .done ∧ w1.sent = 2 ∧ w1.taken = 1 ∧ w1.i = ((2 : Nat) : Int) ∧
      lt1.stopCh.len + 1
        = ((fun j : Int => ({ cap := 1, len := if j = 2 then 1 else 0 } : Chan)) ((2 : Nat) : Int)).len :=
  (runWorker_checkpoint (fun j => { cap := 1, len := if j = 2 then 1 else 0 })
    (fun _ => .response 200) (exampleEngine 20 1) 20).1 2 (by decide)
    (fun j h0 h1 => by
      have h2 : ¬ j = 2 := by omega
      simp [h2])
    (by decide) 7 (by decide)

/-! ## C10 -/

/-- C10: `Start` never divides by zero, whatever the engine; and with
`workerCount = 0` and any `totalRequests`, construction succeeds (for a valid
request), `Start` spawns no worker and has returned at once, and under every
schedule no worker action happens, no request is attempted and `Result()` is
empty. -/
theorem Start_without_workers (v : String → String → Bool) (url m ua : String) (tmo T : Int) :
    (∀ (lt : LoadTester) (stops : List StopCall), lt.Start stops ≠ .error .divideByZero) ∧
    (v m url = true →
      ∃ lt, NewLoadTester v url m ua tmo T 0 = .ok lt ∧
        ∀ stops, ∃ s0, lt.Start stops = .ok s0 ∧ s0.workers = [] ∧ s0.StartReturned = true ∧
          ∀ es s, s0.run es = some s →
            s.workers = [] ∧ s.attempted = 0 ∧ s.lt.Result = [] ∧ s.StartReturned = true ∧
            es.all (fun e => !e.isWorker) = true) := by
  refine ⟨Start_not_divideByZero, fun hv => ?_⟩
  obtain ⟨lt, hlt⟩ := NewLoadTester_succeeds v url m ua tmo T 0 hv (le_refl _)
  obtain ⟨-, -, -, hcon, hres, -⟩ := NewLoadTester_ok _ _ _ _ _ _ _ _ hlt
  refine ⟨lt, hlt, fun stops => ?_⟩
  obtain ⟨N, s0, hN, hlt0, -, hws, -, -, -, -, hlive0, -, -, -, -, hcnt0⟩ :=
    Start_fresh lt stops (by omega) (by omega)
  rw [hcon] at hws hlive0
  have hws0 : s0.workers = [] := by simpa using hws
  have hwg0 : s0.wg = 0 := by
    have := hcnt0.2.1
    rw [hlive0] at this
    simpa using this
  refine ⟨s0, hN, hws0, by simp [Sys.StartReturned, hwg0, hcnt0.1], fun es s hrun => ?_⟩
  have key : ∀ (es : List Event) (s1 s : Sys), s1.workers = [] → s1.lt.result = [] →
      s1.wg = 0 → s1.panicked = false → s1.run es = some s →
      s.workers = [] ∧ s.lt.result = [] ∧ s.wg = 0 ∧ s.panicked = false ∧
        es.all (fun e => !e.isWorker) = true := by
    intro es
    induction es with
    | nil =>
      intro s1 s h1 h2 hw hp h3
      simp only [Sys.run, Option.some.injEq] at h3
      subst h3
      exact ⟨h1, h2, hw, hp, rfl⟩
    | cons e t ih =>
      intro s1 s h1 h2 hw hp h3
      simp only [Sys.run] at h3
      cases hs : s1.step e with
      | none => simp [hs] at h3
      | some s2 =>
        simp only [hs] at h3
        cases he : e.isWorker with
        | true =>
          cases e with
          | worker j reply => simp [Sys.step, h1] at hs
          | callStop => simp [Event.isWorker] at he
          | stop k => simp [Event.isWorker] at he
        | false =>
          obtain ⟨h4, h5⟩ := Sys.step_other s1 e s2 he hs
          obtain ⟨h4w, h4p⟩ := Sys.step_other_wg s1 e s2 he hs
          obtain ⟨h6, h7, h7w, h7p, h8⟩ := ih s2 s (by rw [h4, h1]) (by rw [h5, h2])
            (by rw [h4w, hw]) (by rw [h4p, hp]) h3
          exact ⟨h6, h7, h7w, h7p, by simp [he, h8]⟩
  obtain ⟨k1, k2, kw, kp, k3⟩ := key es s0 s hws0 (by rw [hlt0]; exact hres) hwg0 hcnt0.1 hrun
  exact ⟨k1, by simp [Sys.attempted, k1], k2, by simp [Sys.StartReturned, kw, kp], k3⟩

/-- C10 on an example: 20 requests and no worker. -/
theorem Start_without_workers_witness :
    ∃ lt, NewLoadTester (fun _ _ => true) "http://localhost/" "GET" "user-agent" 1000000000 20 0
        = .ok lt ∧
      ∀ stops, ∃ s0, lt.Start stops = .ok s0 ∧ s0.workers = [] ∧ s0.StartReturned = true ∧
        ∀ es s, s0.run es = some s →
          s.workers = [] ∧ s.attempted = 0 ∧ s.lt.Result = [] ∧ s.StartReturned = true ∧
          es.all (fun e => !e.isWorker) = true :=
  (Start_without_workers (fun _ _ => true) "http://localhost/" "GET" "user-agent" 1000000000
    20).2 rfl

end LoadTest
